import Mathlib

/-!
Verification development for the aics-segmentation playground workflows.

The repository consists of three notebook workflows (LAMP-1, lamin B1, and
the dots workflow for Centrin-2 / Desmoplakin / PMP34) that compose the core
pipeline stages: intensity normalization, Gaussian smoothing, scale-space
spot/filament detection, hole filling, size filtering, and seeded watershed
separation.  The notebooks contain the composition (plumbing) of these
stages; the stage implementations themselves live in the external
`aicssegmentation` / `skimage` / `scipy` libraries and are modelled here from
the specification's description of them (each such definition carries a
`Modelled from the spec:` note).

Volumes are embedded as functions `Fin n → ℚ` over an abstract finite voxel
set with an explicit adjacency relation `adj : Fin n → Fin n → Bool`
(capturing the configurable 2D/3D connectivity); flat intensity data for the
normalization stage is embedded as `List ℚ`.
-/

namespace AicsSeg

/-! ## Intensity normalization (list model of the flattened voxel data) -/

/-- Minimum intensity of a stack; 0 for the empty stack. -/
def listMin : List ℚ → ℚ
  | [] => 0
  | x :: xs => xs.foldl min x

/-- Maximum intensity of a stack; 0 for the empty stack. -/
def listMax : List ℚ → ℚ
  | [] => 0
  | x :: xs => xs.foldl max x

/-- Mean intensity of a stack (rational division; 0 for the empty stack). -/
def mean (img : List ℚ) : ℚ := img.sum / (img.length : ℚ)

/-- Population variance of a stack. -/
def variance (img : List ℚ) : ℚ :=
  ((img.map (fun x => (x - mean img) ^ 2)).sum) / (img.length : ℚ)

/-- Modelled from the spec: computable stand-in for the floating-point square
root used by the external standard-deviation computation; it is exact at 0
and on perfect squares, which is all the degenerate-input analysis needs. -/
def ratSqrt (q : ℚ) : ℚ := (Nat.sqrt q.num.toNat : ℚ) / (Nat.sqrt q.den : ℚ)

/-- Modelled from the spec: min-max rescaling of a stack to the unit
interval using the stack's own min and max, with the degenerate constant
stack explicitly rescaled to the uniform 0 stack (spec 4.1: "the
implementation must define rescaling as producing a uniform 0 volume in that
degenerate case"). -/
def minMaxRescale (img : List ℚ) : List ℚ :=
  if listMax img = listMin img then img.map (fun _ => 0)
  else img.map (fun x => (x - listMin img) / (listMax img - listMin img))

/-- Modelled from the spec and the notebooks' parameter documentation:
`intensity_normalization(struct_img, scaling_param)`.  A one-element
parameter list `K` selects min-max normalization with absolute upper bound
`K` (`K > 0`: anything above `K` is reset to the minimum intensity of the
stack before rescaling; `K = 0`: plain min-max).  A two-element list `A, B`
first cuts the intensity range to the interval from mean − A·std to
mean + B·std and then rescales to the unit interval.  Other parameter shapes
are invalid and leave the stack unchanged. -/
def intensity_normalization (struct_img : List ℚ) (scaling_param : List ℚ) : List ℚ :=
  match scaling_param with
  | [K] =>
      let m := listMin struct_img
      let clipped := if 0 < K then struct_img.map (fun x => if K < x then m else x) else struct_img
      minMaxRescale clipped
  | [A, B] =>
      let mu := mean struct_img
      let sd := ratSqrt (variance struct_img)
      minMaxRescale (struct_img.map (fun x => max (mu - A * sd) (min (mu + B * sd) x)))
  | _ => struct_img

/-! ## Connected components over an abstract adjacency

The morphological stages (hole filling, size filtering, component
labeling) and the watershed separator all work with connected components of
a boolean volume under a configurable connectivity.  Components are computed
by iterated neighbourhood expansion (`cstep`), saturated after `n` steps. -/

section Graph

variable {n : ℕ}

/-- One expansion step of a region `S` inside the domain `d`: adds every
voxel of `d` adjacent to the region. -/
def cstep (adj : Fin n → Fin n → Bool) (d : Fin n → Bool) (S : Finset (Fin n)) :
    Finset (Fin n) :=
  S ∪ Finset.univ.filter (fun w => d w = true ∧ ∃ v ∈ S, adj v w = true)

/-- Iterated expansion. -/
def creach (adj : Fin n → Fin n → Bool) (d : Fin n → Bool) (k : ℕ) (S : Finset (Fin n)) :
    Finset (Fin n) :=
  (cstep adj d)^[k] S

/-- The connected component (within domain `d`) of the voxel `v`: `n`
expansion steps always reach saturation. -/
def comp (adj : Fin n → Fin n → Bool) (d : Fin n → Bool) (v : Fin n) : Finset (Fin n) :=
  creach adj d n {v}

/-- Least voxel index occurring in a region (`n` when the region is empty). -/
def minIdx (S : Finset (Fin n)) : ℕ := S.fold min n Fin.val

/-- Modelled from the spec: connected-component labeling (`skimage.measure.label`).
Background voxels get 0; every foreground voxel gets a positive label that is a
canonical function of its component (one plus the least voxel index in the
component), so voxels share a label exactly when they share a component. -/
def label (adj : Fin n → Fin n → Bool) (m : Fin n → Bool) (v : Fin n) : ℕ :=
  if m v = true then minIdx (comp adj m v) + 1 else 0

end Graph

/-! ## Morphological operations -/

section Morph

variable {n : ℕ}

/-- Modelled from the spec: morphological dilation by a unit ball — a voxel
is foreground after dilation iff it was foreground or has a foreground
neighbour under the adjacency. -/
def dilation (adj : Fin n → Fin n → Bool) (m : Fin n → Bool) (v : Fin n) : Bool :=
  m v || decide (∃ w, adj v w = true ∧ m w = true)

/-- Modelled from the spec: `hole_filling(bw, hole_min, hole_max, fill_2d)`.
A background-connected region is filled iff its voxel count lies in the
inclusive bounds and it does not touch the volume border (regions touching
the border are not enclosed and are never holes).  The 2D/3D mode is
captured by the choice of adjacency, and the volume border by the predicate
`border`. -/
def hole_filling (adj : Fin n → Fin n → Bool) (border : Fin n → Bool)
    (m : Fin n → Bool) (hole_min hole_max : ℕ) (v : Fin n) : Bool :=
  m v ||
    (!m v &&
      decide (hole_min ≤ (comp adj (fun w => !m w) v).card ∧
        (comp adj (fun w => !m w) v).card ≤ hole_max ∧
        ∀ w ∈ comp adj (fun w => !m w) v, border w = false))

/-- Modelled from the spec: `skimage.morphology.remove_small_objects` — a
foreground voxel is kept iff its connected component (under the given
connectivity) has at least `min_size` voxels. -/
def remove_small_objects (adj : Fin n → Fin n → Bool) (m : Fin n → Bool)
    (min_size : ℕ) (v : Fin n) : Bool :=
  m v && decide (min_size ≤ (comp adj m v).card)

/-- Modelled from the spec: local-intensity-maxima seeding restricted to a
labeled mask — a voxel is a peak iff it carries a positive label and no
neighbour with the same label has strictly larger intensity. -/
def peak_local_max_wrapper (adj : Fin n → Fin n → Bool) (struct_img : Fin n → ℚ)
    (label_img : Fin n → ℕ) (v : Fin n) : Bool :=
  decide (0 < label_img v) &&
    decide (∀ w, adj v w = true → label_img w = label_img v → struct_img w ≤ struct_img v)

/-- Modelled from the spec: distance transform of a binary mask — the
distance of every voxel to the nearest background voxel, modelled as the
adjacency-graph distance (an order-compatible elevation stand-in for the
Euclidean distance of `scipy.ndimage.distance_transform_edt`; the watershed
flooding below depends on the elevation only through its order). -/
def distance_transform_edt (adj : Fin n → Fin n → Bool) (m : Fin n → Bool) (v : Fin n) : ℕ :=
  ((List.range (n + 1)).find? (fun k =>
      decide (v ∈ creach adj (fun _ => true) k (Finset.univ.filter (fun w => m w = false))))).getD
    (n + 1)

end Morph

/-! ## Scale-space detectors and smoothing -/

section Detect

variable {n : ℕ}

/-- Modelled from the spec: the 3D spot-detector wrapper.  The per-scale
filter response (a scale-normalized Hessian / Laplacian-of-Gaussian
response, spec 9 leaves its exact form to the external library) is the
parameter `response`; for each (scale, cutoff) pair the response is
thresholded at the cutoff and the binary masks are accumulated with logical
OR, starting from the all-background mask. -/
def dot_3d_wrapper (response : (Fin n → ℚ) → ℚ → Fin n → ℚ)
    (struct_img : Fin n → ℚ) (s3_param : List (ℚ × ℚ)) : Fin n → Bool :=
  s3_param.foldl (fun bw p => fun v => bw v || decide (p.2 < response struct_img p.1 v))
    (fun _ => false)

/-- Modelled from the spec: the 2D filament-detector wrapper; identical
threshold-and-union skeleton with a ridge-favouring eigen-response. -/
def filament_2d_wrapper (response : (Fin n → ℚ) → ℚ → Fin n → ℚ)
    (struct_img : Fin n → ℚ) (f2_param : List (ℚ × ℚ)) : Fin n → Bool :=
  f2_param.foldl (fun bw p => fun v => bw v || decide (p.2 < response struct_img p.1 v))
    (fun _ => false)

/-- Modelled from the spec: Gaussian smoothing as a linear kernel-weighted
sum over the volume; the slice-by-slice (2D) versus volumetric (3D) mode is
captured by the support of the kernel weights. -/
def image_smoothing_gaussian_slice_by_slice (kernel : Fin n → Fin n → ℚ)
    (img : Fin n → ℚ) (v : Fin n) : ℚ :=
  Finset.univ.sum (fun w => kernel v w * img w)

/-- Two volumes (over possibly different index sets) have the same shape
when their voxel index sets agree; in this embedding every stage is an
endofunction of volumes over one index set, so shape preservation is by
construction. -/
def sameShape {a b : ℕ} {α β : Type} (_f : Fin a → α) (_g : Fin b → β) : Prop := a = b

end Detect

/-! ## Seeded watershed

Modelled from the spec (4.5): priority-flood watershed.  The flooding state
assigns each voxel `none` (not yet flooded), `some 0` (watershed line) or
`some (k+1)` (basin `k+1`).  At each step the unflooded in-mask voxel with a
positively-labeled neighbour and least (elevation, voxel index) priority —
the spec's fixed lowest-coordinate tie-breaking rule — is flooded: it
receives its neighbours' label when they agree, and (with watershed lines
enabled) the line label 0 when two basins meet there.  `n` steps flood every
reachable voxel. -/

section Watershed

variable {n : ℕ} {α : Type} [LinearOrder α]

/-- Set of distinct positive labels on the neighbours of `v`. -/
def posLabels (adj : Fin n → Fin n → Bool) (lab : Fin n → Option ℕ) (v : Fin n) :
    Finset ℕ :=
  (Finset.univ.filter (fun w => adj v w = true ∧ 0 < (lab w).getD 0)).image
    (fun w => (lab w).getD 0)

/-- A voxel is a flooding candidate iff it is in the mask, not yet flooded,
and adjacent to an already positively-labeled voxel. -/
def isCandidate (adj : Fin n → Fin n → Bool) (mask : Fin n → Bool)
    (lab : Fin n → Option ℕ) (v : Fin n) : Bool :=
  mask v && (lab v).isNone && decide (posLabels adj lab v ≠ ∅)

/-- Current flooding candidates, in voxel order. -/
def candList (adj : Fin n → Fin n → Bool) (mask : Fin n → Bool)
    (lab : Fin n → Option ℕ) : List (Fin n) :=
  (List.finRange n).filter (fun v => isCandidate adj mask lab v)

/-- Strict flooding-priority comparison: lower elevation first, then lower
voxel index (the fixed tie-breaking rule). -/
def keyLt (elev : Fin n → α) (v w : Fin n) : Bool :=
  decide (elev v < elev w) || (decide (elev v = elev w) && decide (v < w))

/-- Keep the candidate with the smaller priority. -/
def pickBetter (elev : Fin n → α) (a : Option (Fin n)) (v : Fin n) : Option (Fin n) :=
  match a with
  | none => some v
  | some w => if keyLt elev v w = true then some v else some w

/-- The candidate flooded next: the one of least priority, if any. -/
def pickNext (adj : Fin n → Fin n → Bool) (mask : Fin n → Bool) (elev : Fin n → α)
    (lab : Fin n → Option ℕ) : Option (Fin n) :=
  (candList adj mask lab).foldl (pickBetter elev) none

/-- One flooding step.  A uniquely-claimed candidate joins its neighbouring
basin; a contested candidate becomes a watershed-line voxel when lines are
enabled and otherwise joins the basin with the numerically largest label
(a fixed deterministic tie rule). -/
def wstep (adj : Fin n → Fin n → Bool) (mask : Fin n → Bool) (elev : Fin n → α)
    (line : Bool) (lab : Fin n → Option ℕ) : Fin n → Option ℕ :=
  match pickNext adj mask elev lab with
  | none => lab
  | some v =>
      if (posLabels adj lab v).card = 1 ∨ line = false then
        Function.update lab v (some ((posLabels adj lab v).fold max 0 id))
      else Function.update lab v (some 0)

/-- Number of not-yet-flooded voxels (used to show `n` steps suffice). -/
def numNone (lab : Fin n → Option ℕ) : ℕ :=
  (Finset.univ.filter (fun v => (lab v).isNone = true)).card

/-- Modelled from the spec: `skimage.segmentation.watershed(image, markers,
mask, watershed_line)`.  Markers seed the basins (only inside the mask),
flooding runs for `n` steps over the elevation `image`, and unflooded
voxels (background, watershed lines) come out as label 0. -/
def watershed (adj : Fin n → Fin n → Bool) (image : Fin n → α) (markers : Fin n → ℕ)
    (mask : Fin n → Bool) (line : Bool) (v : Fin n) : ℕ :=
  (((wstep adj mask image line)^[n]
      (fun w => if mask w = true ∧ 0 < markers w then some (markers w) else none)) v).getD 0

/-- No two adjacent voxels carry distinct positive (basin) labels — the
separation invariant maintained by line-enabled flooding. -/
def GoodLab (adj : Fin n → Fin n → Bool) (lab : Fin n → Option ℕ) : Prop :=
  ∀ x y a b, adj x y = true → lab x = some a → lab y = some b → 0 < a → 0 < b → a = b

end Watershed

/-! ## Notebook recipes (the plumbing present in the repository sources) -/

section Recipes

variable {n : ℕ}

/-- Watershed step of the dots workflow (playground_dots, step 2.2):
`Mask = remove_small_objects(bw>0, min_size=minArea, connectivity=1)`,
`Seed = dilation(peak_local_max_wrapper(struct_img, label(Mask)), selem=ball(1))`,
`Watershed_Map = -1*distance_transform_edt(bw)`,
`seg = watershed(Watershed_Map, label(Seed), mask=Mask, watershed_line=True)`.
Here `struct_img` is the normalized but un-smoothed structure channel of the
notebook's step 1 and `bw` the spot-detector mask of step 2.1. -/
def dots_watershed (adj : Fin n → Fin n → Bool) (struct_img : Fin n → ℚ)
    (bw : Fin n → Bool) (minArea : ℕ) : Fin n → ℕ :=
  let Mask := remove_small_objects adj bw minArea
  let Seed := dilation adj (peak_local_max_wrapper adj struct_img (label adj Mask))
  let Watershed_Map : Fin n → ℤ := fun v => -1 * (distance_transform_edt adj bw v : ℤ)
  watershed adj Watershed_Map (label adj Seed) Mask true

/-- Full dots workflow after detection: the watershed step followed by the
post-processing size filter with the same `minArea` and connectivity
(playground_dots, step 3). -/
def dots_pipeline (adj : Fin n → Fin n → Bool) (struct_img : Fin n → ℚ)
    (bw : Fin n → Bool) (minArea : ℕ) : Fin n → Bool :=
  remove_small_objects adj
    (fun v => decide (0 < dots_watershed adj struct_img bw minArea v)) minArea

/-- Reference variant of the dots workflow without the pre-watershed removal
of small objects, stated from the notebook's own description of that removal
as "only meant to avoid unnecessary computation": the watershed runs on the
unfiltered detector mask (seeds from the local maxima of all labeled
components) and only the final size filter is applied. -/
def dots_pipeline_unoptimized (adj : Fin n → Fin n → Bool) (struct_img : Fin n → ℚ)
    (bw : Fin n → Bool) (minArea : ℕ) : Fin n → Bool :=
  let Seed := dilation adj (peak_local_max_wrapper adj struct_img (label adj bw))
  let Watershed_Map : Fin n → ℤ := fun v => -1 * (distance_transform_edt adj bw v : ℤ)
  remove_small_objects adj
    (fun v => decide (0 < watershed adj Watershed_Map (label adj Seed) bw true v)) minArea

/-- Filled volume of the lamin B1 shell workflow (playground lamin, part 3):
`bw_filled = watershed(struct_img, seed.astype(int), watershed_line=True) > 0`
(no mask: flooding over the whole volume). -/
def lamin_filled (adj : Fin n → Fin n → Bool) (struct_img : Fin n → ℚ)
    (seed : Fin n → ℕ) (v : Fin n) : Bool :=
  decide (0 < watershed adj struct_img seed (fun _ => true) true v)

/-- Shell extraction of the lamin B1 workflow:
`seg = np.logical_xor(bw_filled, dilation(bw_filled, selem=ball(1)))`. -/
def lamin_shell (adj : Fin n → Fin n → Bool) (struct_img : Fin n → ℚ)
    (seed : Fin n → ℕ) (v : Fin n) : Bool :=
  xor (lamin_filled adj struct_img seed v) (dilation adj (lamin_filled adj struct_img seed) v)

end Recipes

/-! ## Concrete instances used by the witnesses and the counterexample -/

/-- Path-graph connectivity on three voxels. -/
def adjPath3 : Fin 3 → Fin 3 → Bool :=
  fun i j => decide (i.val + 1 = j.val) || decide (j.val + 1 = i.val)

/-- Path-graph connectivity on two voxels. -/
def adjPath2 : Fin 2 → Fin 2 → Bool :=
  fun i j => decide (i.val + 1 = j.val) || decide (j.val + 1 = i.val)

/-- Flat elevation on three voxels. -/
def elev3 : Fin 3 → ℤ := fun _ => 0

/-- Markers with two distinct seeds at the ends of the three-voxel path. -/
def markers3 : Fin 3 → ℕ := fun v => if v.val = 0 then 1 else if v.val = 2 then 2 else 0

/-- All-foreground mask on three voxels. -/
def maskAll3 : Fin 3 → Bool := fun _ => true

/-- Mask with a gap in the middle of the three-voxel path. -/
def maskGap3 : Fin 3 → Bool := fun v => decide (v.val ≠ 1)

/-- Border indicator marking the first voxel. -/
def border3 : Fin 3 → Bool := fun v => decide (v.val = 0)

/-- Small intensity volume on three voxels. -/
def img3 : Fin 3 → ℚ := fun v => (v.val : ℚ)

/-- Intensity volume on two voxels. -/
def img2 : Fin 2 → ℚ := fun v => (v.val : ℚ)

/-- All-foreground mask on two voxels. -/
def maskAll2 : Fin 2 → Bool := fun _ => true

/-- Edge list of an 8-voxel connectivity: a path 0–1–2–3–4 of foreground
voxels, background voxels 5 (next to 0), 6 (next to 4) and a lone extra
foreground voxel 7 adjacent to 5 and 6.  It realizes, in minimal form, the
geometry of a 2D 4-connectivity grid in which a large component carries two
local maxima and an isolated small component sits two pixels away from both
ends (as in a 3×7 grid with the top row foreground plus two isolated
bottom-row pixels). -/
def edgesCE : List (ℕ × ℕ) :=
  [(0, 1), (1, 2), (2, 3), (3, 4), (0, 5), (4, 6), (5, 7), (6, 7)]

/-- Symmetric adjacency generated by `edgesCE`. -/
def adjCE : Fin 8 → Fin 8 → Bool :=
  fun a b => decide ((a.val, b.val) ∈ edgesCE ∨ (b.val, a.val) ∈ edgesCE)

/-- Detector mask for the counterexample: the path 0..4 (component of
size 5) and the isolated voxel 7 (component of size 1). -/
def bwCE : Fin 8 → Bool := fun v => decide (v.val ≤ 4 ∨ v.val = 7)

/-- Structure-channel intensities for the counterexample: local maxima of
the path component at its end voxels 0 and 4. -/
def imgCE : Fin 8 → ℚ := fun v =>
  if v.val = 0 ∨ v.val = 4 then 5 else if v.val = 1 ∨ v.val = 3 then 1 else 0

/-! Literal tables of the intermediate stage outputs on the counterexample
instance (each is verified against the corresponding stage by `decide` in
the counterexample proof). -/

/-- Size-filtered mask of the optimized run: voxel 7 removed. -/
def maskAL : Fin 8 → Bool := fun v => [true, true, true, true, true, false, false, false].getD v.val false

/-- Component labels of the filtered mask. -/
def labAL : Fin 8 → ℕ := fun v => [1, 1, 1, 1, 1, 0, 0, 0].getD v.val 0

/-- Local maxima on the filtered mask. -/
def pkAL : Fin 8 → Bool := fun v => [true, false, false, false, true, false, false, false].getD v.val false

/-- Dilated seed mask of the optimized run: two separate seed groups. -/
def seedAL : Fin 8 → Bool := fun v => [true, true, false, true, true, true, true, false].getD v.val false

/-- Seed labels of the optimized run: labels 1 and 4 are distinct basins. -/
def mkAL : Fin 8 → ℕ := fun v => [1, 1, 0, 4, 4, 1, 4, 0].getD v.val 0

/-- Negated distance transform of the detector mask. -/
def wmapL : Fin 8 → ℤ := fun v => [-1, -2, -3, -2, -1, 0, 0, -1].getD v.val 0

/-- Watershed output of the optimized run: voxel 2 is a watershed line. -/
def outAL : Fin 8 → ℕ := fun v => [1, 1, 0, 4, 4, 0, 0, 0].getD v.val 0

/-- Binarized watershed output of the optimized run. -/
def binAL : Fin 8 → Bool := fun v => [true, true, false, true, true, false, false, false].getD v.val false

/-- Final mask of the optimized run. -/
def finalAL : Fin 8 → Bool := fun v => [true, true, false, true, true, false, false, false].getD v.val false

/-- Component labels of the unfiltered detector mask. -/
def labBL : Fin 8 → ℕ := fun v => [1, 1, 1, 1, 1, 0, 0, 8].getD v.val 0

/-- Local maxima on the unfiltered mask: voxel 7 is also a maximum. -/
def pkBL : Fin 8 → Bool := fun v => [true, false, false, false, true, false, false, true].getD v.val false

/-- Dilated seed mask of the unoptimized run: one connected seed mask, as
the seeds dilated from voxel 7 bridge the two seed groups through the
background voxels 5 and 6. -/
def seedBL : Fin 8 → Bool := fun v => [true, true, false, true, true, true, true, true].getD v.val false

/-- Seed labels of the unoptimized run: a single basin label. -/
def mkBL : Fin 8 → ℕ := fun v => [1, 1, 0, 1, 1, 1, 1, 1].getD v.val 0

/-- Watershed output of the unoptimized run: voxel 2 is flooded, not a line. -/
def outBL : Fin 8 → ℕ := fun v => [1, 1, 1, 1, 1, 0, 0, 1].getD v.val 0

/-- Binarized watershed output of the unoptimized run. -/
def binBL : Fin 8 → Bool := fun v => [true, true, true, true, true, false, false, true].getD v.val false

/-- Final mask of the unoptimized run: voxel 2 is foreground, unlike in the
optimized run. -/
def finalBL : Fin 8 → Bool := fun v => [true, true, true, true, true, false, false, false].getD v.val false

/-- Upper clipping, as the spec words it: every voxel with intensity
strictly greater than `K` (when `K > 0`) is set to the volume's pre-clip
minimum; for `K = 0` (or `K < 0`) the volume is unchanged. -/
def upperClip (img : List ℚ) (K : ℚ) : List ℚ :=
  img.map (fun x => if 0 < K ∧ K < x then listMin img else x)

/-! # Lemmas and claim theorems -/

/-! ## Intensity normalization -/

theorem foldl_min_replicate (c : ℚ) : ∀ len, (List.replicate len c).foldl min c = c := by
  intro len
  induction len with
  | zero => rfl
  | succ k ih => rw [List.replicate_succ, List.foldl_cons, min_self]; exact ih

theorem foldl_max_replicate (c : ℚ) : ∀ len, (List.replicate len c).foldl max c = c := by
  intro len
  induction len with
  | zero => rfl
  | succ k ih => rw [List.replicate_succ, List.foldl_cons, max_self]; exact ih

theorem listMin_replicate (len : ℕ) (c : ℚ) :
    listMin (List.replicate len c) = if len = 0 then 0 else c := by
  cases len with
  | zero => rfl
  | succ k =>
      rw [List.replicate_succ]
      simp only [listMin, Nat.succ_ne_zero, if_false]
      exact foldl_min_replicate c k

theorem listMax_replicate (len : ℕ) (c : ℚ) :
    listMax (List.replicate len c) = if len = 0 then 0 else c := by
  cases len with
  | zero => rfl
  | succ k =>
      rw [List.replicate_succ]
      simp only [listMax, Nat.succ_ne_zero, if_false]
      exact foldl_max_replicate c k

theorem minMaxRescale_replicate (len : ℕ) (c : ℚ) :
    minMaxRescale (List.replicate len c) = List.replicate len 0 := by
  unfold minMaxRescale
  rw [listMin_replicate, listMax_replicate, if_pos rfl, List.map_replicate]

theorem minMaxRescale_length (l : List ℚ) : (minMaxRescale l).length = l.length := by
  unfold minMaxRescale
  split <;> rw [List.length_map]

theorem intensity_normalization_length (img p : List ℚ) :
    (intensity_normalization img p).length = img.length := by
  unfold intensity_normalization
  match p with
  | [] => rfl
  | [K] =>
      simp only
      rw [minMaxRescale_length]
      split <;> simp [List.length_map]
  | [A, B] =>
      simp only
      rw [minMaxRescale_length, List.length_map]
  | a :: b :: c :: rest => rfl

/-- C3: for a volume normalized with a single-bound parameter list, when
`K > 0` every voxel with intensity strictly greater than `K` is first set to
the volume's pre-clip minimum, and then — for `K > 0` as well as `K = 0` —
the (possibly modified) volume is min-max rescaled using its own minimum and
maximum. -/
theorem intensity_normalization_upper_bounded_spec (img : List ℚ) (K : ℚ) (hK : 0 ≤ K)
    (hne : listMin (upperClip img K) ≠ listMax (upperClip img K)) :
    intensity_normalization img [K] =
      (upperClip img K).map (fun x =>
        (x - listMin (upperClip img K)) / (listMax (upperClip img K) - listMin (upperClip img K))) := by
  have hclip : (if 0 < K then img.map (fun x => if K < x then listMin img else x) else img) =
      upperClip img K := by
    by_cases h0 : 0 < K
    · rw [if_pos h0]
      unfold upperClip
      apply List.map_congr_left
      intro x _
      by_cases hx : K < x
      · rw [if_pos hx, if_pos ⟨h0, hx⟩]
      · rw [if_neg hx, if_neg (fun hc => hx hc.2)]
    · rw [if_neg h0]
      unfold upperClip
      have : ∀ x ∈ img, (if 0 < K ∧ K < x then listMin img else x) = x := by
        intro x _
        rw [if_neg (fun hc => h0 hc.1)]
      rw [List.map_congr_left this, List.map_id']
  show minMaxRescale (if 0 < K then img.map (fun x => if K < x then listMin img else x) else img) = _
  rw [hclip]
  unfold minMaxRescale
  rw [if_neg (fun h => hne h.symm)]

/-- Witness for C3 at the concrete volume `[0, 2, 10]` with bound `K = 5`:
the voxel 10 is reset to the pre-clip minimum 0 and the result is the
min-max rescaling `[0, 1, 0]` of `[0, 2, 0]`. -/
theorem intensity_normalization_upper_bounded_spec_witness :
    (0 : ℚ) ≤ 5 ∧ listMin (upperClip [0, 2, 10] 5) ≠ listMax (upperClip [0, 2, 10] 5) ∧
      intensity_normalization [0, 2, 10] [5] =
        (upperClip [0, 2, 10] 5).map (fun x =>
          (x - listMin (upperClip [0, 2, 10] 5)) /
            (listMax (upperClip [0, 2, 10] 5) - listMin (upperClip [0, 2, 10] 5))) :=
  ⟨by norm_num, by decide,
    intensity_normalization_upper_bounded_spec [0, 2, 10] 5 (by norm_num) (by decide)⟩

/-- C4: an all-zero volume is normalized, under every parameter shape
(single-bound, two-sided, or even an invalid list), to the all-zero volume;
the degenerate min-max rescale of a constant volume is the explicit uniform-0
edge case, so no undefined value arises. -/
theorem intensity_normalization_zero_volume (len : ℕ) (p : List ℚ) :
    intensity_normalization (List.replicate len 0) p = List.replicate len 0 := by
  unfold intensity_normalization
  match p with
  | [] => rfl
  | [K] =>
      simp only
      have hmin : listMin (List.replicate len (0 : ℚ)) = 0 := by
        rw [listMin_replicate]; split <;> rfl
      have hclip : (if 0 < K then
          (List.replicate len (0 : ℚ)).map (fun x => if K < x then listMin (List.replicate len 0) else x)
          else List.replicate len 0) = List.replicate len 0 := by
        split
        · rw [List.map_replicate, hmin]
          congr 1
          split <;> rfl
        · rfl
      rw [hclip, minMaxRescale_replicate]
  | [A, B] =>
      simp only
      rw [List.map_replicate, minMaxRescale_replicate]
  | a :: b :: c :: rest => rfl

/-! ## Shape invariance -/

/-- C9: every pipeline stage preserves the shape of its input volume: the
list-modelled normalization provably preserves the voxel count, and the
smoothing, detection, hole-filling, size-filtering and watershed stages are
endofunctions of volumes over one fixed voxel index set, so their outputs
have the same shape as their inputs by construction. -/
theorem pipeline_shape_invariance {n : ℕ} :
    (∀ (img p : List ℚ), (intensity_normalization img p).length = img.length)
    ∧ (∀ (kernel : Fin n → Fin n → ℚ) (img : Fin n → ℚ),
        sameShape img (image_smoothing_gaussian_slice_by_slice kernel img))
    ∧ (∀ (response : (Fin n → ℚ) → ℚ → Fin n → ℚ) (img : Fin n → ℚ) (params : List (ℚ × ℚ)),
        sameShape img (dot_3d_wrapper response img params))
    ∧ (∀ (adj : Fin n → Fin n → Bool) (border m : Fin n → Bool) (lo hi : ℕ),
        sameShape m (hole_filling adj border m lo hi))
    ∧ (∀ (adj : Fin n → Fin n → Bool) (m : Fin n → Bool) (k : ℕ),
        sameShape m (remove_small_objects adj m k))
    ∧ (∀ (adj : Fin n → Fin n → Bool) (elev : Fin n → ℤ) (markers : Fin n → ℕ)
        (mask : Fin n → Bool) (line : Bool),
        sameShape elev (watershed adj elev markers mask line)) :=
  ⟨intensity_normalization_length,
    fun _kernel _img => rfl,
    fun _response _img _params => rfl,
    fun _adj _border _m _lo _hi => rfl,
    fun _adj _m _k => rfl,
    fun _adj _elev _markers _mask _line => rfl⟩

/-! ## Detector union -/

theorem detector_foldl_any {n : ℕ} (response : (Fin n → ℚ) → ℚ → Fin n → ℚ)
    (img : Fin n → ℚ) :
    ∀ (params : List (ℚ × ℚ)) (acc : Fin n → Bool),
      params.foldl (fun bw p => fun v => bw v || decide (p.2 < response img p.1 v)) acc
        = fun v => acc v || params.any (fun p => decide (p.2 < response img p.1 v)) := by
  intro params
  induction params with
  | nil => intro acc; funext v; simp
  | cons p ps ih =>
      intro acc
      rw [List.foldl_cons, ih]
      funext v
      rw [List.any_cons]
      simp [Bool.or_assoc]

/-- C5: a scale-space detector's mask is the logical OR of the per-pair
response masks, so permuting the scale-cutoff list leaves the mask
bit-identical; and when spot and filament responses are combined, the
combined mask is their logical OR, so the composition order never matters. -/
theorem detector_union_comm {n : ℕ} (R1 R2 : (Fin n → ℚ) → ℚ → Fin n → ℚ)
    (img : Fin n → ℚ) (l1 l2 lf : List (ℚ × ℚ)) (hperm : l1.Perm l2) :
    dot_3d_wrapper R1 img l1 = dot_3d_wrapper R1 img l2
    ∧ (fun v => dot_3d_wrapper R1 img l1 v || filament_2d_wrapper R2 img lf v)
      = (fun v => filament_2d_wrapper R2 img lf v || dot_3d_wrapper R1 img l1 v) := by
  constructor
  · unfold dot_3d_wrapper
    rw [detector_foldl_any, detector_foldl_any]
    funext v
    simp only [Bool.false_or]
    rw [Bool.eq_iff_iff, List.any_eq_true, List.any_eq_true]
    constructor
    · rintro ⟨p, hp, hpv⟩
      exact ⟨p, hperm.mem_iff.mp hp, hpv⟩
    · rintro ⟨p, hp, hpv⟩
      exact ⟨p, hperm.mem_iff.mpr hp, hpv⟩
  · funext v
    exact Bool.or_comm _ _

/-- Witness for C5 on a two-voxel volume with a two-pair scale list and its
swap. -/
theorem detector_union_comm_witness :
    ((([((1 : ℚ), (1 : ℚ) / 25), (5 / 2, 7 / 100)] : List (ℚ × ℚ)).Perm
        [(5 / 2, 7 / 100), (1, 1 / 25)])
      ∧ (dot_3d_wrapper (fun img s v => s * img v) img2 [(1, 1 / 25), (5 / 2, 7 / 100)]
          = dot_3d_wrapper (fun img s v => s * img v) img2 [(5 / 2, 7 / 100), (1, 1 / 25)]
        ∧ (fun v => dot_3d_wrapper (fun img s v => s * img v) img2 [(1, 1 / 25), (5 / 2, 7 / 100)] v
              || filament_2d_wrapper (fun img s v => s * img v) img2 [(1, 1 / 2)] v)
          = (fun v => filament_2d_wrapper (fun img s v => s * img v) img2 [(1, 1 / 2)] v
              || dot_3d_wrapper (fun img s v => s * img v) img2 [(1, 1 / 25), (5 / 2, 7 / 100)] v))) :=
  ⟨List.Perm.swap _ _ _,
    detector_union_comm (fun img s v => s * img v) (fun img s v => s * img v) img2
      [(1, 1 / 25), (5 / 2, 7 / 100)] [(5 / 2, 7 / 100), (1, 1 / 25)] [(1, 1 / 2)]
      (List.Perm.swap _ _ _)⟩

/-! ## Connected-component lemmas -/

section GraphLemmas

variable {n : ℕ} (adj : Fin n → Fin n → Bool)

theorem mem_cstep_iff {d : Fin n → Bool} {S : Finset (Fin n)} {w : Fin n} :
    w ∈ cstep adj d S ↔ w ∈ S ∨ (d w = true ∧ ∃ v ∈ S, adj v w = true) := by
  unfold cstep
  simp [Finset.mem_union, Finset.mem_filter]

theorem subset_cstep (d : Fin n → Bool) (S : Finset (Fin n)) : S ⊆ cstep adj d S :=
  Finset.subset_union_left

theorem cstep_mono {d : Fin n → Bool} {S T : Finset (Fin n)} (h : S ⊆ T) :
    cstep adj d S ⊆ cstep adj d T := by
  intro w hw
  rcases (mem_cstep_iff adj).mp hw with h1 | ⟨hd, v, hv, ha⟩
  · exact (mem_cstep_iff adj).mpr (Or.inl (h h1))
  · exact (mem_cstep_iff adj).mpr (Or.inr ⟨hd, v, h hv, ha⟩)

theorem cstep_mono_d {d1 d2 : Fin n → Bool} (hd : ∀ w, d2 w = true → d1 w = true)
    (S : Finset (Fin n)) : cstep adj d2 S ⊆ cstep adj d1 S := by
  intro w hw
  rcases (mem_cstep_iff adj).mp hw with h1 | ⟨hdw, v, hv, ha⟩
  · exact (mem_cstep_iff adj).mpr (Or.inl h1)
  · exact (mem_cstep_iff adj).mpr (Or.inr ⟨hd w hdw, v, hv, ha⟩)

theorem creach_succ (d : Fin n → Bool) (k : ℕ) (S : Finset (Fin n)) :
    creach adj d (k + 1) S = cstep adj d (creach adj d k S) :=
  Function.iterate_succ_apply' _ _ _

theorem creach_mono_k (d : Fin n → Bool) (S : Finset (Fin n)) {k l : ℕ} (h : k ≤ l) :
    creach adj d k S ⊆ creach adj d l S := by
  induction l with
  | zero =>
      have : k = 0 := Nat.le_zero.mp h
      rw [this]
  | succ l ih =>
      rcases Nat.lt_or_ge k (l + 1) with hk | hk
      · have h1 := ih (Nat.lt_succ_iff.mp hk)
        rw [creach_succ]
        exact subset_trans h1 (subset_cstep adj d _)
      · have : k = l + 1 := le_antisymm h hk
        rw [this]

theorem creach_mono (d : Fin n → Bool) {S T : Finset (Fin n)} (h : S ⊆ T) (k : ℕ) :
    creach adj d k S ⊆ creach adj d k T := by
  induction k with
  | zero => exact h
  | succ k ih =>
      rw [creach_succ, creach_succ]
      exact cstep_mono adj ih

theorem creach_fix {d : Fin n → Bool} {S : Finset (Fin n)}
    (h : cstep adj d S = S) (k : ℕ) : creach adj d k S = S := by
  induction k with
  | zero => rfl
  | succ k ih => rw [creach_succ, ih, h]

theorem creach_stab (d : Fin n → Bool) (v : Fin n) :
    ∃ j ≤ n, cstep adj d (creach adj d j {v}) = creach adj d j {v} := by
  by_contra hcon
  push_neg at hcon
  have hgrow : ∀ j, j ≤ n → j + 1 ≤ (creach adj d j {v}).card := by
    intro j
    induction j with
    | zero =>
        intro _
        have : (creach adj d 0 {v}) = {v} := rfl
        rw [this, Finset.card_singleton]
    | succ j ih =>
        intro hj
        have hj' : j ≤ n := le_trans (Nat.le_succ j) hj
        have h1 := ih hj'
        have hne : cstep adj d (creach adj d j {v}) ≠ creach adj d j {v} := hcon j hj'
        have hss : creach adj d j {v} ⊂ creach adj d (j + 1) {v} := by
            rw [creach_succ]
            exact HasSubset.Subset.ssubset_of_ne (subset_cstep adj d _) (Ne.symm hne)
        have := Finset.card_lt_card hss
        omega
  have h1 := hgrow n le_rfl
  have h2 : (creach adj d n {v}).card ≤ n := by
    have := Finset.card_le_univ (creach adj d n {v})
    rwa [Fintype.card_fin] at this
  omega

theorem creach_eq_comp (d : Fin n → Bool) (v : Fin n) {k : ℕ} (hk : n ≤ k) :
    creach adj d k {v} = comp adj d v := by
  obtain ⟨j, hj, hfix⟩ := creach_stab adj d v
  have key : ∀ m, j ≤ m → creach adj d m {v} = creach adj d j {v} := by
    intro m hm
    have hmj : m = (m - j) + j := (Nat.sub_add_cancel hm).symm
    rw [hmj]
    show (cstep adj d)^[(m - j) + j] {v} = _
    rw [Function.iterate_add_apply]
    exact creach_fix adj hfix _
  rw [key k (le_trans hj hk)]
  show _ = creach adj d n {v}
  rw [key n hj]

theorem cstep_comp (d : Fin n → Bool) (v : Fin n) :
    cstep adj d (comp adj d v) = comp adj d v := by
  have h1 : cstep adj d (creach adj d n {v}) = creach adj d (n + 1) {v} :=
    (creach_succ adj d n _).symm
  show cstep adj d (creach adj d n {v}) = creach adj d n {v}
  rw [h1, creach_eq_comp adj d v (Nat.le_succ n)]
  rfl

theorem creach_subset_comp (d : Fin n → Bool) (v : Fin n) (k : ℕ) :
    creach adj d k {v} ⊆ comp adj d v := by
  rcases le_total k n with h | h
  · exact creach_mono_k adj d _ h
  · rw [creach_eq_comp adj d v h]

theorem self_mem_comp {d : Fin n → Bool} {v : Fin n} : v ∈ comp adj d v :=
  creach_subset_comp adj d v 0 (Finset.mem_singleton_self v)

theorem comp_closed (d : Fin n → Bool) (v : Fin n) {x w : Fin n}
    (hx : x ∈ comp adj d v) (ha : adj x w = true) (hw : d w = true) :
    w ∈ comp adj d v := by
  rw [← cstep_comp adj d v]
  exact (mem_cstep_iff adj).mpr (Or.inr ⟨hw, x, hx, ha⟩)

theorem comp_induction (d : Fin n → Bool) (v : Fin n) (P : Fin n → Prop) (hbase : P v)
    (hstep : ∀ x w, P x → adj x w = true → d w = true → P w) :
    ∀ w ∈ comp adj d v, P w := by
  have hall : ∀ k, ∀ w ∈ creach adj d k {v}, P w := by
    intro k
    induction k with
    | zero =>
        intro w hw
        have : w = v := Finset.mem_singleton.mp hw
        rwa [this]
    | succ k ih =>
        intro w hw
        rw [creach_succ] at hw
        rcases (mem_cstep_iff adj).mp hw with h1 | ⟨hd, x, hx, ha⟩
        · exact ih w h1
        · exact hstep x w (ih x hx) ha hd
  exact hall n

theorem mem_comp_d {d : Fin n → Bool} {v : Fin n} (hv : d v = true) {w : Fin n}
    (hw : w ∈ comp adj d v) : d w = true :=
  comp_induction adj d v (fun u => d u = true) hv (fun _ _ _ _ hd => hd) w hw

theorem comp_subset_of_mem {d : Fin n → Bool} {v w : Fin n} (hw : w ∈ comp adj d v) :
    comp adj d w ⊆ comp adj d v := by
  intro u hu
  exact comp_induction adj d w (fun u => u ∈ comp adj d v) hw
    (fun x u hx ha hd => comp_closed adj d v hx ha hd) u hu

theorem mem_comp_symm (hsymm : ∀ x y, adj x y = adj y x) {d : Fin n → Bool} {v w : Fin n}
    (hv : d v = true) (hw : w ∈ comp adj d v) : v ∈ comp adj d w := by
  refine (comp_induction adj d v (fun u => v ∈ comp adj d u ∧ d u = true)
    ⟨self_mem_comp adj, hv⟩ ?_ w hw).1
  intro x u hx ha hd
  refine ⟨?_, hd⟩
  have hax : adj u x = true := by rw [hsymm u x]; exact ha
  have hxu : x ∈ comp adj d u := comp_closed adj d u (self_mem_comp adj) hax hx.2
  exact comp_subset_of_mem adj hxu hx.1

theorem comp_eq_of_mem (hsymm : ∀ x y, adj x y = adj y x) {d : Fin n → Bool} {v w : Fin n}
    (hv : d v = true) (hw : w ∈ comp adj d v) : comp adj d w = comp adj d v :=
  Finset.Subset.antisymm (comp_subset_of_mem adj hw)
    (comp_subset_of_mem adj (mem_comp_symm adj hsymm hv hw))

theorem comp_mono_d {d1 d2 : Fin n → Bool} (hd : ∀ w, d2 w = true → d1 w = true) (v : Fin n) :
    comp adj d2 v ⊆ comp adj d1 v := by
  have hall : ∀ k, creach adj d2 k {v} ⊆ creach adj d1 k {v} := by
    intro k
    induction k with
    | zero => exact subset_refl _
    | succ k ih =>
        rw [creach_succ, creach_succ]
        exact subset_trans (cstep_mono_d adj hd _) (cstep_mono adj ih)
  exact hall n

theorem comp_eq_of_sub {d1 d2 : Fin n → Bool} (hd : ∀ w, d2 w = true → d1 w = true)
    {v : Fin n} (hv : d2 v = true) (hall : ∀ w ∈ comp adj d1 v, d2 w = true) :
    comp adj d2 v = comp adj d1 v := by
  refine Finset.Subset.antisymm (comp_mono_d adj hd v) ?_
  have hrev : ∀ k, creach adj d1 k {v} ⊆ comp adj d2 v := by
    intro k
    induction k with
    | zero =>
        intro w hw
        have : w = v := Finset.mem_singleton.mp hw
        rw [this]
        exact self_mem_comp adj
    | succ k ih =>
        intro w hw
        rw [creach_succ] at hw
        rcases (mem_cstep_iff adj).mp hw with h1 | ⟨hdw, x, hx, ha⟩
        · exact ih h1
        · have hw1 : w ∈ comp adj d1 v := by
            refine creach_subset_comp adj d1 v (k + 1) ?_
            rw [creach_succ]
            exact (mem_cstep_iff adj).mpr (Or.inr ⟨hdw, x, hx, ha⟩)
          have hw2 : d2 w = true := hall w hw1
          exact comp_closed adj d2 v (ih hx) ha hw2
  exact hrev n

end GraphLemmas

/-! ## Labeling lemmas -/

section LabelLemmas

variable {n : ℕ} (adj : Fin n → Fin n → Bool)

theorem minIdx_singleton (a : Fin n) : minIdx {a} = a.val := by
  unfold minIdx
  rw [Finset.fold_singleton]
  exact min_eq_left (le_of_lt a.isLt)

theorem minIdx_cons (a : Fin n) (s : Finset (Fin n)) (ha : a ∉ s) :
    minIdx (Finset.cons a s ha) = min a.val (minIdx s) := by
  unfold minIdx
  rw [Finset.fold_cons]

theorem minIdx_mem {S : Finset (Fin n)} (h : S.Nonempty) : ∃ a ∈ S, a.val = minIdx S := by
  induction h using Finset.Nonempty.cons_induction with
  | singleton a => exact ⟨a, Finset.mem_singleton_self a, (minIdx_singleton a).symm⟩
  | cons a s ha hs ih =>
      obtain ⟨b, hb, hbv⟩ := ih
      rw [minIdx_cons a s ha]
      rcases le_total a.val (minIdx s) with hab | hab
      · exact ⟨a, Finset.mem_cons_self a s, (min_eq_left hab).symm⟩
      · refine ⟨b, Finset.mem_cons.mpr (Or.inr hb), ?_⟩
        rw [min_eq_right hab]
        exact hbv

theorem label_pos_iff {m : Fin n → Bool} {v : Fin n} :
    0 < label adj m v ↔ m v = true := by
  unfold label
  by_cases h : m v = true <;> simp [h]

theorem label_of_neg {m : Fin n → Bool} {v : Fin n} (h : m v = false) :
    label adj m v = 0 := by
  unfold label
  rw [if_neg (by rw [h]; exact Bool.false_ne_true)]

theorem label_of_pos {m : Fin n → Bool} {v : Fin n} (h : m v = true) :
    label adj m v = minIdx (comp adj m v) + 1 := by
  unfold label
  rw [if_pos h]

theorem label_eq_label (hsymm : ∀ x y, adj x y = adj y x) {m : Fin n → Bool} {v : Fin n}
    (hv : m v = true) (w : Fin n) :
    label adj m w = label adj m v ↔ (m w = true ∧ comp adj m w = comp adj m v) := by
  constructor
  · intro h
    have hw : m w = true := by
      by_contra hc
      have hc' : m w = false := by
        cases hmw : m w
        · rfl
        · exact absurd hmw hc
      rw [label, if_neg (by rw [hc']; exact Bool.false_ne_true), label, if_pos hv] at h
      exact Nat.succ_ne_zero _ h.symm
    refine ⟨hw, ?_⟩
    rw [label, if_pos hw, label, if_pos hv] at h
    have hmin : minIdx (comp adj m w) = minIdx (comp adj m v) := Nat.succ_injective h
    obtain ⟨a, ha, hav⟩ := minIdx_mem ⟨w, self_mem_comp adj⟩
    obtain ⟨b, hb, hbv⟩ := minIdx_mem ⟨v, self_mem_comp adj⟩
    have hab : a = b := Fin.val_injective (by rw [hav, hbv, hmin])
    have h1 : comp adj m a = comp adj m w := comp_eq_of_mem adj hsymm hw ha
    have h2 : comp adj m a = comp adj m v := comp_eq_of_mem adj hsymm hv (hab ▸ hb)
    rw [← h1, h2]
  · rintro ⟨hw, hc⟩
    rw [label, if_pos hw, label, if_pos hv, hc]

end LabelLemmas

/-! ## Morphology claims -/

section MorphClaims

variable {n : ℕ}

/-- C6: hole filling is idempotent — re-applying `hole_filling` with the
same bounds, border and connectivity leaves the mask unchanged, since
previously filled holes are now foreground and the verdict of every
remaining background region is unchanged. -/
theorem hole_filling_idempotent (adj : Fin n → Fin n → Bool) (border : Fin n → Bool)
    (hsymm : ∀ x y, adj x y = adj y x) (m : Fin n → Bool) (lo hi : ℕ) :
    hole_filling adj border (hole_filling adj border m lo hi) lo hi
      = hole_filling adj border m lo hi := by
  funext v
  set m2 : Fin n → Bool := hole_filling adj border m lo hi with hm2
  cases h2 : m2 v with
  | true =>
      unfold hole_filling
      rw [h2, Bool.true_or]
  | false =>
      have hmv : m v = false ∧
          decide (lo ≤ (comp adj (fun w => !m w) v).card ∧
            (comp adj (fun w => !m w) v).card ≤ hi ∧
            ∀ w ∈ comp adj (fun w => !m w) v, border w = false) = false := by
        have h2' := h2
        rw [hm2] at h2'
        unfold hole_filling at h2'
        rcases Bool.or_eq_false_iff.mp h2' with ⟨ha, hb⟩
        refine ⟨ha, ?_⟩
        rw [ha] at hb
        simpa using hb
      have hcomp : comp adj (fun w => !m2 w) v = comp adj (fun w => !m w) v := by
        refine comp_eq_of_sub adj ?_ ?_ ?_
        · intro w hw
          have : m2 w = false := by simpa using hw
          have hmw : m w = false := by
            by_contra hc
            have hmw' : m w = true := by
              cases hx : m w
              · exact absurd hx hc
              · rfl
            have : m2 w = true := by
              rw [hm2]
              unfold hole_filling
              rw [hmw', Bool.true_or]
            simp [this] at hw
          simp [hmw]
        · simp [h2]
        · intro w hw
          have hbgv : (fun w => !m w) v = true := by simp [hmv.1]
          have hbgw : m w = false := by
            have := mem_comp_d adj hbgv hw
            simpa using this
          have hcw : comp adj (fun u => !m u) w = comp adj (fun u => !m u) v :=
            comp_eq_of_mem adj hsymm hbgv hw
          show (!m2 w) = true
          rw [hm2]
          unfold hole_filling
          rw [hbgw, hcw, hmv.2]
          rfl
      unfold hole_filling
      rw [h2, hcomp, hmv.2, Bool.false_or, Bool.and_false]

/-- Witness for C6 on the three-voxel path with a one-voxel gap. -/
theorem hole_filling_idempotent_witness :
    (∀ x y, adjPath3 x y = adjPath3 y x) ∧
      hole_filling adjPath3 border3 (hole_filling adjPath3 border3 maskGap3 0 2) 0 2
        = hole_filling adjPath3 border3 maskGap3 0 2 :=
  ⟨by decide, hole_filling_idempotent adjPath3 border3 (by decide) maskGap3 0 2⟩

/-- C7: after size filtering, every remaining connected component of the
output mask has at least `k` voxels, and every foreground voxel removed from
the input lay in a component of fewer than `k` voxels. -/
theorem remove_small_objects_spec (adj : Fin n → Fin n → Bool)
    (hsymm : ∀ x y, adj x y = adj y x) (m : Fin n → Bool) (k : ℕ) :
    (∀ v, remove_small_objects adj m k v = true →
      k ≤ (comp adj (fun w => remove_small_objects adj m k w) v).card)
    ∧ (∀ v, m v = true → remove_small_objects adj m k v = false →
      (comp adj m v).card < k) := by
  constructor
  · intro v hv
    have hparts : m v = true ∧ k ≤ (comp adj m v).card := by
      unfold remove_small_objects at hv
      simp only [Bool.and_eq_true, decide_eq_true_eq] at hv
      exact hv
    have hcomp : comp adj (fun w => remove_small_objects adj m k w) v = comp adj m v := by
      refine comp_eq_of_sub adj ?_ ?_ ?_
      · intro w hw
        unfold remove_small_objects at hw
        simp only [Bool.and_eq_true, decide_eq_true_eq] at hw
        exact hw.1
      · exact hv
      · intro w hw
        have hmw : m w = true := mem_comp_d adj hparts.1 hw
        have hcw : comp adj m w = comp adj m v := comp_eq_of_mem adj hsymm hparts.1 hw
        unfold remove_small_objects
        rw [hmw, hcw, Bool.true_and]
        exact decide_eq_true_eq.mpr hparts.2
    rw [hcomp]
    exact hparts.2
  · intro v hmv hv
    unfold remove_small_objects at hv
    rw [hmv, Bool.true_and] at hv
    have := of_decide_eq_false hv
    omega

/-- Witness for C7 on the three-voxel path with a gapped mask and minimum
size 2: the two isolated voxels are removed. -/
theorem remove_small_objects_spec_witness :
    (∀ x y, adjPath3 x y = adjPath3 y x) ∧
      ((∀ v, remove_small_objects adjPath3 maskGap3 2 v = true →
        2 ≤ (comp adjPath3 (fun w => remove_small_objects adjPath3 maskGap3 2 w) v).card)
      ∧ (∀ v, maskGap3 v = true → remove_small_objects adjPath3 maskGap3 2 v = false →
        (comp adjPath3 maskGap3 v).card < 2)) :=
  ⟨by decide, remove_small_objects_spec adjPath3 (by decide) maskGap3 2⟩

end MorphClaims

/-! ## Watershed lemmas -/

section WatershedLemmas

variable {n : ℕ} {α : Type} [LinearOrder α]

theorem keyLt_irrefl (elev : Fin n → α) (v : Fin n) : keyLt elev v v = false := by
  unfold keyLt
  simp

theorem keyLt_antisymm (elev : Fin n → α) {v w : Fin n}
    (h1 : keyLt elev v w = false) (h2 : keyLt elev w v = false) : v = w := by
  unfold keyLt at h1 h2
  simp only [Bool.or_eq_false_iff, Bool.and_eq_false_iff, decide_eq_false_iff_not] at h1 h2
  have he : elev v = elev w := le_antisymm (not_lt.mp h2.1) (not_lt.mp h1.1)
  rcases h1.2 with hc | hc
  · exact absurd he hc
  · rcases h2.2 with hd | hd
    · exact absurd he.symm hd
    · exact le_antisymm (not_lt.mp hd) (not_lt.mp hc)

theorem keyLt_trans (elev : Fin n → α) {x w r : Fin n}
    (h1 : keyLt elev x w = true) (h2 : keyLt elev w r = true) : keyLt elev x r = true := by
  unfold keyLt at h1 h2 ⊢
  simp only [Bool.or_eq_true, Bool.and_eq_true, decide_eq_true_eq] at h1 h2 ⊢
  rcases h1 with h1 | ⟨he1, hv1⟩
  · rcases h2 with h2 | ⟨he2, hv2⟩
    · exact Or.inl (lt_trans h1 h2)
    · exact Or.inl (he2 ▸ h1)
  · rcases h2 with h2 | ⟨he2, hv2⟩
    · exact Or.inl (he1 ▸ h2)
    · exact Or.inr ⟨he1.trans he2, lt_trans hv1 hv2⟩

theorem keyLt_neg_trans (elev : Fin n → α) {x w r : Fin n}
    (h1 : keyLt elev x w = false) (h2 : keyLt elev w r = false) : keyLt elev x r = false := by
  unfold keyLt at h1 h2 ⊢
  simp only [Bool.or_eq_false_iff, Bool.and_eq_false_iff, decide_eq_false_iff_not] at h1 h2 ⊢
  have hxw : elev w ≤ elev x := not_lt.mp h1.1
  have hwr : elev r ≤ elev w := not_lt.mp h2.1
  refine ⟨not_lt.mpr (hwr.trans hxw), ?_⟩
  by_cases he : elev x = elev r
  · have hew : elev x = elev w := le_antisymm (he ▸ hwr) hxw
    have her : elev w = elev r := le_antisymm (hew ▸ (le_of_eq he)) hwr
    have hx1 : ¬x < w := by
      rcases h1.2 with hc | hc
      · exact absurd hew hc
      · exact hc
    have hx2 : ¬w < r := by
      rcases h2.2 with hc | hc
      · exact absurd her hc
      · exact hc
    exact Or.inr (not_lt.mpr ((not_lt.mp hx2).trans (not_lt.mp hx1)))
  · exact Or.inl he

theorem foldl_pickBetter_mem (elev : Fin n → α) :
    ∀ (l : List (Fin n)) (acc : Option (Fin n)) (r : Fin n),
      l.foldl (pickBetter elev) acc = some r → r ∈ l ∨ acc = some r := by
  intro l
  induction l with
  | nil => intro acc r h; exact Or.inr h
  | cons x xs ih =>
      intro acc r h
      rw [List.foldl_cons] at h
      rcases ih (pickBetter elev acc x) r h with h1 | h1
      · exact Or.inl (List.mem_cons_of_mem _ h1)
      · cases acc with
        | none =>
            have : x = r := by
              have : some x = some r := h1
              exact Option.some_injective _ this
            exact Or.inl (this ▸ List.mem_cons_self x xs)
        | some w =>
            simp only [pickBetter] at h1
            by_cases hk : keyLt elev x w = true
            · rw [if_pos hk] at h1
              have : x = r := Option.some_injective _ h1
              exact Or.inl (this ▸ List.mem_cons_self x xs)
            · rw [if_neg hk] at h1
              exact Or.inr h1

theorem foldl_pickBetter_some (elev : Fin n → α) :
    ∀ (l : List (Fin n)) (w : Fin n), ∃ r, l.foldl (pickBetter elev) (some w) = some r := by
  intro l
  induction l with
  | nil => intro w; exact ⟨w, rfl⟩
  | cons x xs ih =>
      intro w
      rw [List.foldl_cons]
      simp only [pickBetter]
      by_cases hk : keyLt elev x w = true
      · rw [if_pos hk]; exact ih x
      · rw [if_neg hk]; exact ih w

theorem foldl_pickBetter_min (elev : Fin n → α) :
    ∀ (l : List (Fin n)) (acc : Option (Fin n)) (r : Fin n),
      l.foldl (pickBetter elev) acc = some r →
        (∀ x ∈ l, keyLt elev x r = false) ∧ (∀ w, acc = some w → keyLt elev w r = false) := by
  intro l
  induction l with
  | nil =>
      intro acc r h
      refine ⟨fun x hx => absurd hx (List.not_mem_nil x), fun w hw => ?_⟩
      have : w = r := Option.some_injective _ (hw ▸ h)
      rw [this]
      exact keyLt_irrefl elev r
  | cons x xs ih =>
      intro acc r h
      rw [List.foldl_cons] at h
      obtain ⟨hxs, hacc⟩ := ih (pickBetter elev acc x) r h
      have hxr : keyLt elev x r = false := by
        cases acc with
        | none => exact hacc x rfl
        | some w =>
            by_cases hk : keyLt elev x w = true
            · refine hacc x ?_
              simp only [pickBetter]
              rw [if_pos hk]
            · have hwr : keyLt elev w r = false := by
                refine hacc w ?_
                simp only [pickBetter]
                rw [if_neg hk]
              exact keyLt_neg_trans elev (Bool.not_eq_true _ ▸ hk) hwr
      constructor
      · intro y hy
        rcases List.mem_cons.mp hy with h1 | h1
        · rw [h1]; exact hxr
        · exact hxs y h1
      · intro w hw
        cases acc with
        | none => exact absurd hw (by simp)
        | some u =>
            have huw : u = w := Option.some_injective _ hw
            subst huw
            by_cases hk : keyLt elev x u = true
            · cases hur : keyLt elev u r with
              | false => rfl
              | true =>
                  have h2 : keyLt elev x r = true := keyLt_trans elev hk hur
                  rw [hxr] at h2
                  exact h2.symm
            · refine hacc u ?_
              simp only [pickBetter]
              rw [if_neg hk]

variable (adj : Fin n → Fin n → Bool) (mask : Fin n → Bool) (elev : Fin n → α)

theorem mem_candList {lab : Fin n → Option ℕ} {v : Fin n} :
    v ∈ candList adj mask lab ↔ isCandidate adj mask lab v = true := by
  unfold candList
  rw [List.mem_filter]
  simp [List.mem_finRange]

theorem pickNext_isCandidate {lab : Fin n → Option ℕ} {v : Fin n}
    (hp : pickNext adj mask elev lab = some v) : isCandidate adj mask lab v = true := by
  unfold pickNext at hp
  rcases foldl_pickBetter_mem elev _ none v hp with h | h
  · exact (mem_candList adj mask).mp h
  · exact absurd h (by simp)

theorem pickNext_min {lab : Fin n → Option ℕ} {v : Fin n}
    (hp : pickNext adj mask elev lab = some v) :
    ∀ w, isCandidate adj mask lab w = true → keyLt elev w v = false := by
  intro w hw
  unfold pickNext at hp
  exact (foldl_pickBetter_min elev _ none v hp).1 w ((mem_candList adj mask).mpr hw)

theorem pickNext_some_of_candidate {lab : Fin n → Option ℕ} {w : Fin n}
    (hw : isCandidate adj mask lab w = true) :
    ∃ r, pickNext adj mask elev lab = some r := by
  have hmem : w ∈ candList adj mask lab := (mem_candList adj mask).mpr hw
  unfold pickNext
  cases hl : candList adj mask lab with
  | nil => rw [hl] at hmem; exact absurd hmem (List.not_mem_nil w)
  | cons x xs =>
      rw [List.foldl_cons]
      show ∃ r, xs.foldl (pickBetter elev) (some x) = some r
      exact foldl_pickBetter_some elev xs x

theorem isCandidate_iff {lab : Fin n → Option ℕ} {v : Fin n} :
    isCandidate adj mask lab v = true ↔
      mask v = true ∧ lab v = none ∧ posLabels adj lab v ≠ ∅ := by
  unfold isCandidate
  simp [Bool.and_eq_true, Option.isNone_iff_eq_none, and_assoc]

theorem wstep_eq_of_none {line : Bool} {lab : Fin n → Option ℕ}
    (hp : pickNext adj mask elev lab = none) :
    wstep adj mask elev line lab = lab := by
  unfold wstep
  rw [hp]

theorem wstep_eq_of_some {line : Bool} {lab : Fin n → Option ℕ} {v : Fin n}
    (hp : pickNext adj mask elev lab = some v) :
    wstep adj mask elev line lab =
      if (posLabels adj lab v).card = 1 ∨ line = false then
        Function.update lab v (some ((posLabels adj lab v).fold max 0 id))
      else Function.update lab v (some 0) := by
  unfold wstep
  rw [hp]

theorem wstep_update {line : Bool} {lab : Fin n → Option ℕ} {v : Fin n}
    (hp : pickNext adj mask elev lab = some v) :
    ∃ X, wstep adj mask elev line lab = Function.update lab v (some X) := by
  rw [wstep_eq_of_some adj mask elev hp]
  by_cases hc : (posLabels adj lab v).card = 1 ∨ line = false
  · rw [if_pos hc]; exact ⟨_, rfl⟩
  · rw [if_neg hc]; exact ⟨0, rfl⟩

theorem wstep_none_outside {line : Bool} {lab : Fin n → Option ℕ}
    (hinv : ∀ w, mask w = false → lab w = none) :
    ∀ w, mask w = false → wstep adj mask elev line lab w = none := by
  intro w hw
  cases hp : pickNext adj mask elev lab with
  | none => rw [wstep_eq_of_none adj mask elev hp]; exact hinv w hw
  | some v =>
      have hc := pickNext_isCandidate adj mask elev hp
      have hmv : mask v = true := ((isCandidate_iff adj mask).mp hc).1
      have hvw : w ≠ v := by
        intro h
        rw [h, hmv] at hw
        exact absurd hw (by simp)
      obtain ⟨X, hX⟩ := wstep_update adj mask elev hp
      rw [hX, Function.update_noteq hvw]
      exact hinv w hw

theorem iterate_none_outside {line : Bool} :
    ∀ (k : ℕ) (lab : Fin n → Option ℕ), (∀ w, mask w = false → lab w = none) →
      ∀ w, mask w = false → ((wstep adj mask elev line)^[k] lab) w = none := by
  intro k
  induction k with
  | zero => intro lab hinv w hw; exact hinv w hw
  | succ k ih =>
      intro lab hinv w hw
      rw [Function.iterate_succ_apply]
      exact ih _ (wstep_none_outside adj mask elev hinv) w hw

theorem numNone_wstep (line : Bool) {lab : Fin n → Option ℕ} {v : Fin n}
    (hp : pickNext adj mask elev lab = some v) :
    numNone (wstep adj mask elev line lab) + 1 = numNone lab := by
  have hc := pickNext_isCandidate adj mask elev hp
  have hnone : lab v = none := ((isCandidate_iff adj mask).mp hc).2.1
  obtain ⟨X, hX⟩ := wstep_update adj mask elev hp
  rw [hX]
  unfold numNone
  have hset : (Finset.univ.filter (fun w => ((Function.update lab v (some X)) w).isNone = true))
      = (Finset.univ.filter (fun w => (lab w).isNone = true)).erase v := by
    ext w
    rw [Finset.mem_erase, Finset.mem_filter, Finset.mem_filter]
    constructor
    · intro ⟨_, hw⟩
      by_cases hwv : w = v
      · rw [hwv, Function.update_same] at hw
        exact absurd hw (by simp)
      · rw [Function.update_noteq hwv] at hw
        exact ⟨hwv, Finset.mem_univ w, hw⟩
    · intro ⟨hwv, _, hw⟩
      rw [← Function.update_noteq hwv (some X) lab] at hw
      exact ⟨Finset.mem_univ w, hw⟩
  rw [hset, Finset.card_erase_of_mem (by rw [Finset.mem_filter]; exact ⟨Finset.mem_univ v, by rw [hnone]; rfl⟩)]
  have hpos : 0 < (Finset.univ.filter (fun w => (lab w).isNone = true)).card := by
    rw [Finset.card_pos]
    exact ⟨v, by rw [Finset.mem_filter]; exact ⟨Finset.mem_univ v, by rw [hnone]; rfl⟩⟩
  omega

theorem numNone_le (lab : Fin n → Option ℕ) : numNone lab ≤ n := by
  unfold numNone
  have := Finset.card_le_univ (Finset.univ.filter (fun w => ((lab w).isNone : Bool) = true))
  rwa [Fintype.card_fin] at this

theorem pick_none_after {line : Bool} :
    ∀ (f : ℕ) (lab : Fin n → Option ℕ), numNone lab ≤ f →
      pickNext adj mask elev ((wstep adj mask elev line)^[f] lab) = none := by
  intro f
  induction f with
  | zero =>
      intro lab h
      show pickNext adj mask elev lab = none
      cases hp : pickNext adj mask elev lab with
      | none => rfl
      | some v =>
          have hc := pickNext_isCandidate adj mask elev hp
          have hnone : lab v = none := ((isCandidate_iff adj mask).mp hc).2.1
          have hpos : 0 < numNone lab := by
            unfold numNone
            rw [Finset.card_pos]
            exact ⟨v, by rw [Finset.mem_filter]; exact ⟨Finset.mem_univ v, by rw [hnone]; rfl⟩⟩
          omega
  | succ f ih =>
      intro lab h
      cases hp : pickNext adj mask elev lab with
      | none =>
          rw [Function.iterate_fixed (wstep_eq_of_none adj mask elev hp)]
          exact hp
      | some v =>
          rw [Function.iterate_succ_apply]
          refine ih _ ?_
          have h2 := numNone_wstep adj mask elev line hp
          omega

theorem mem_posLabels {lab : Fin n → Option ℕ} {v : Fin n} {b : ℕ} :
    b ∈ posLabels adj lab v ↔ ∃ w, adj v w = true ∧ (lab w).getD 0 = b ∧ 0 < b := by
  unfold posLabels
  simp only [Finset.mem_image, Finset.mem_filter, Finset.mem_univ, true_and]
  constructor
  · rintro ⟨w, ⟨ha, hpos⟩, heq⟩
    exact ⟨w, ha, heq, heq ▸ hpos⟩
  · rintro ⟨w, ha, heq, hpos⟩
    exact ⟨w, ⟨ha, heq ▸ hpos⟩, heq⟩

theorem posLabels_pos {lab : Fin n → Option ℕ} {v : Fin n} {b : ℕ}
    (hb : b ∈ posLabels adj lab v) : 0 < b :=
  ((mem_posLabels adj).mp hb).choose_spec.2.2

theorem goodLab_wstep (hsymm : ∀ x y, adj x y = adj y x) {lab : Fin n → Option ℕ}
    (hg : GoodLab adj lab) : GoodLab adj (wstep adj mask elev true lab) := by
  cases hp : pickNext adj mask elev lab with
  | none => rw [wstep_eq_of_none adj mask elev hp]; exact hg
  | some v =>
      have hnone : lab v = none :=
        ((isCandidate_iff adj mask).mp (pickNext_isCandidate adj mask elev hp)).2.1
      rw [wstep_eq_of_some adj mask elev hp]
      by_cases hcard : (posLabels adj lab v).card = 1
      · rw [if_pos (Or.inl hcard)]
        obtain ⟨c, hc⟩ := Finset.card_eq_one.mp hcard
        have hcpos : 0 < c :=
          posLabels_pos adj (hc ▸ Finset.mem_singleton_self c)
        have hfold : (posLabels adj lab v).fold max 0 id = c := by
          rw [hc, Finset.fold_singleton]
          exact Nat.max_eq_left (Nat.zero_le c)
        rw [hfold]
        intro x y a b hadj hx hy ha hb
        by_cases hxv : x = v <;> by_cases hyv : y = v
        · rw [hxv] at hx
          rw [hyv] at hy
          rw [Function.update_same] at hx hy
          have h1 : a = c := (Option.some_injective _ hx).symm
          have h2 : b = c := (Option.some_injective _ hy).symm
          rw [h1, h2]
        · rw [hxv] at hx hadj
          rw [Function.update_same] at hx
          have h1 : a = c := (Option.some_injective _ hx).symm
          rw [Function.update_noteq hyv] at hy
          have h2 : b ∈ posLabels adj lab v :=
            (mem_posLabels adj).mpr ⟨y, hadj, by rw [hy]; rfl, hb⟩
          rw [hc, Finset.mem_singleton] at h2
          rw [h1, h2]
        · rw [hyv] at hy hadj
          rw [Function.update_same] at hy
          have h2 : b = c := (Option.some_injective _ hy).symm
          rw [Function.update_noteq hxv] at hx
          have hadj' : adj v x = true := by rw [hsymm v x]; exact hadj
          have h1 : a ∈ posLabels adj lab v :=
            (mem_posLabels adj).mpr ⟨x, hadj', by rw [hx]; rfl, ha⟩
          rw [hc, Finset.mem_singleton] at h1
          rw [h1, h2]
        · rw [Function.update_noteq hxv] at hx
          rw [Function.update_noteq hyv] at hy
          exact hg x y a b hadj hx hy ha hb
      · rw [if_neg (by simp [hcard])]
        intro x y a b hadj hx hy ha hb
        by_cases hxv : x = v
        · rw [hxv, Function.update_same] at hx
          have : a = 0 := (Option.some_injective _ hx).symm
          omega
        · by_cases hyv : y = v
          · rw [hyv, Function.update_same] at hy
            have : b = 0 := (Option.some_injective _ hy).symm
            omega
          · rw [Function.update_noteq hxv] at hx
            rw [Function.update_noteq hyv] at hy
            exact hg x y a b hadj hx hy ha hb

theorem goodLab_iterate (hsymm : ∀ x y, adj x y = adj y x) :
    ∀ (k : ℕ) (lab : Fin n → Option ℕ), GoodLab adj lab →
      GoodLab adj ((wstep adj mask elev true)^[k] lab) := by
  intro k
  induction k with
  | zero => intro lab hg; exact hg
  | succ k ih =>
      intro lab hg
      rw [Function.iterate_succ_apply]
      exact ih _ (goodLab_wstep adj mask elev hsymm hg)

end WatershedLemmas

/-! ## Watershed claims -/

/-- Markers produced by connected-component labeling are consistent:
adjacent positively-labeled voxels always carry the same label, since they
lie in one component.  This discharges the marker hypothesis of the
watershed-line theorem for every labeling-seeded pipeline run. -/
theorem label_adj_consistent {n : ℕ} (adj : Fin n → Fin n → Bool)
    (hsymm : ∀ x y, adj x y = adj y x) (m : Fin n → Bool) :
    ∀ x y, adj x y = true → 0 < label adj m x → 0 < label adj m y →
      label adj m x = label adj m y := by
  intro x y hadj hx hy
  have hmx : m x = true := (label_pos_iff adj).mp hx
  have hmy : m y = true := (label_pos_iff adj).mp hy
  have hyin : y ∈ comp adj m x := comp_closed adj m x (self_mem_comp adj) hadj hmy
  have hc : comp adj m y = comp adj m x := comp_eq_of_mem adj hsymm hmx hyin
  rw [label_of_pos adj hmx, label_of_pos adj hmy, hc]

/-- C2: with watershed lines enabled, every voxel adjacent to two
differently-labeled foreground (positively labeled) voxels is itself labeled
0, and — as a consequence — two separated objects never touch: adjacent
positively-labeled voxels always carry the same label.  The marker
hypothesis states that adjacent seed voxels never carry distinct seed
labels, which holds for seeds produced by connected-component labeling
(see the consistency lemma above). -/
theorem watershed_line_separation {n : ℕ} {α : Type} [LinearOrder α]
    (adj : Fin n → Fin n → Bool) (elev : Fin n → α) (markers : Fin n → ℕ)
    (mask : Fin n → Bool)
    (hsymm : ∀ x y, adj x y = adj y x)
    (hmk : ∀ x y, adj x y = true → 0 < markers x → 0 < markers y →
      markers x = markers y) :
    (∀ v x y, adj v x = true → adj v y = true →
      0 < watershed adj elev markers mask true x →
      0 < watershed adj elev markers mask true y →
      watershed adj elev markers mask true x ≠ watershed adj elev markers mask true y →
      watershed adj elev markers mask true v = 0)
    ∧ (∀ x y, adj x y = true →
      0 < watershed adj elev markers mask true x →
      0 < watershed adj elev markers mask true y →
      watershed adj elev markers mask true x = watershed adj elev markers mask true y) := by
  have hinit : GoodLab adj
      (fun w => if mask w = true ∧ 0 < markers w then some (markers w) else none) := by
    intro x y a b hadj hx hy ha hb
    replace hx : (if mask x = true ∧ 0 < markers x then some (markers x) else none) = some a := hx
    replace hy : (if mask y = true ∧ 0 < markers y then some (markers y) else none) = some b := hy
    by_cases hcx : mask x = true ∧ 0 < markers x
    · by_cases hcy : mask y = true ∧ 0 < markers y
      · rw [if_pos hcx] at hx
        rw [if_pos hcy] at hy
        have h1 : a = markers x := (Option.some_injective _ hx).symm
        have h2 : b = markers y := (Option.some_injective _ hy).symm
        rw [h1, h2]
        exact hmk x y hadj hcx.2 hcy.2
      · rw [if_neg hcy] at hy
        exact absurd hy (by simp)
    · rw [if_neg hcx] at hx
      exact absurd hx (by simp)
  have hG : GoodLab adj ((wstep adj mask elev true)^[n]
      (fun w => if mask w = true ∧ 0 < markers w then some (markers w) else none)) :=
    goodLab_iterate adj mask elev hsymm n _ hinit
  have hval : ∀ x, 0 < watershed adj elev markers mask true x →
      ((wstep adj mask elev true)^[n]
        (fun w => if mask w = true ∧ 0 < markers w then some (markers w) else none)) x
        = some (watershed adj elev markers mask true x) := by
    intro x hx
    cases hFx : ((wstep adj mask elev true)^[n]
        (fun w => if mask w = true ∧ 0 < markers w then some (markers w) else none)) x with
    | none =>
        have : watershed adj elev markers mask true x = 0 := by
          unfold watershed
          rw [hFx]
          rfl
        omega
    | some k =>
        have : watershed adj elev markers mask true x = k := by
          unfold watershed
          rw [hFx]
          rfl
        rw [this]
  have hsecond : ∀ x y, adj x y = true →
      0 < watershed adj elev markers mask true x →
      0 < watershed adj elev markers mask true y →
      watershed adj elev markers mask true x = watershed adj elev markers mask true y := by
    intro x y hadj hx hy
    exact hG x y _ _ hadj (hval x hx) (hval y hy) hx hy
  refine ⟨?_, hsecond⟩
  intro v x y hvx hvy hx hy hne
  by_cases hv : watershed adj elev markers mask true v = 0
  · exact hv
  · have hvpos : 0 < watershed adj elev markers mask true v := Nat.pos_of_ne_zero hv
    have h1 := hsecond v x hvx hvpos hx
    have h2 := hsecond v y hvy hvpos hy
    exact absurd (h1 ▸ h2) hne

/-- Witness for C2 on the three-voxel path with distinct seeds at both ends
and flat elevation. -/
theorem watershed_line_separation_witness :
    (∀ x y, adjPath3 x y = adjPath3 y x) ∧
      (∀ x y, adjPath3 x y = true → 0 < markers3 x → 0 < markers3 y →
        markers3 x = markers3 y) ∧
      ((∀ v x y, adjPath3 v x = true → adjPath3 v y = true →
        0 < watershed adjPath3 elev3 markers3 maskAll3 true x →
        0 < watershed adjPath3 elev3 markers3 maskAll3 true y →
        watershed adjPath3 elev3 markers3 maskAll3 true x
          ≠ watershed adjPath3 elev3 markers3 maskAll3 true y →
        watershed adjPath3 elev3 markers3 maskAll3 true v = 0)
      ∧ (∀ x y, adjPath3 x y = true →
        0 < watershed adjPath3 elev3 markers3 maskAll3 true x →
        0 < watershed adjPath3 elev3 markers3 maskAll3 true y →
        watershed adjPath3 elev3 markers3 maskAll3 true x
          = watershed adjPath3 elev3 markers3 maskAll3 true y)) :=
  ⟨by decide, by decide,
    watershed_line_separation adjPath3 elev3 markers3 maskAll3 (by decide) (by decide)⟩

theorem watershed_mask_zero {n : ℕ} {α : Type} [LinearOrder α] (adj : Fin n → Fin n → Bool)
    (elev : Fin n → α) (markers : Fin n → ℕ) (mask : Fin n → Bool) (line : Bool) :
    ∀ v, mask v = false → watershed adj elev markers mask line v = 0 := by
  intro v hv
  unfold watershed
  rw [iterate_none_outside adj mask elev n _ (by intro w hw; simp [hw]) v hv]
  rfl

/-- C1: the watershed step of the dots recipe computes its seeds from the
local intensity maxima of the structure channel (the normalized, un-smoothed
channel) restricted to the labeled size-filtered mask (each dilated maximum
group becoming one positive seed label), uses as elevation surface the
negated distance transform of the binary detection mask `bw`, and runs
line-enabled watershed flooding from those seeds constrained to the mask:
voxels outside the mask are never labeled. -/
theorem dots_watershed_spec {n : ℕ} (adj : Fin n → Fin n → Bool) (struct_img : Fin n → ℚ)
    (bw : Fin n → Bool) (minArea : ℕ) :
    dots_watershed adj struct_img bw minArea
      = watershed adj (fun v => -1 * (distance_transform_edt adj bw v : ℤ))
          (label adj (dilation adj (peak_local_max_wrapper adj struct_img
            (label adj (remove_small_objects adj bw minArea)))))
          (remove_small_objects adj bw minArea) true
    ∧ (∀ v, 0 < label adj (dilation adj (peak_local_max_wrapper adj struct_img
          (label adj (remove_small_objects adj bw minArea)))) v ↔
        dilation adj (peak_local_max_wrapper adj struct_img
          (label adj (remove_small_objects adj bw minArea))) v = true)
    ∧ (∀ v, remove_small_objects adj bw minArea v = false →
        dots_watershed adj struct_img bw minArea v = 0) := by
  refine ⟨rfl, fun v => label_pos_iff adj, ?_⟩
  intro v hv
  exact watershed_mask_zero adj
    (fun v => -1 * (distance_transform_edt adj bw v : ℤ))
    (label adj (dilation adj (peak_local_max_wrapper adj struct_img
      (label adj (remove_small_objects adj bw minArea)))))
    (remove_small_objects adj bw minArea) true v hv

/-- C8: in the shell-extraction recipe, the final shell mask is the logical
XOR of the watershed-filled volume with its one-voxel dilation, i.e. exactly
the voxels outside the filled volume that touch it — a one-voxel-thick
outward boundary shell disjoint from the filled interior. -/
theorem shell_xor_spec {n : ℕ} (adj : Fin n → Fin n → Bool) (struct_img : Fin n → ℚ)
    (seed : Fin n → ℕ) :
    lamin_shell adj struct_img seed
      = (fun v => xor (lamin_filled adj struct_img seed v)
          (dilation adj (lamin_filled adj struct_img seed) v))
    ∧ (∀ v, lamin_shell adj struct_img seed v = true ↔
        (lamin_filled adj struct_img seed v = false ∧
          ∃ w, adj v w = true ∧ lamin_filled adj struct_img seed w = true)) := by
  constructor
  · rfl
  · intro v
    show xor (lamin_filled adj struct_img seed v)
      (dilation adj (lamin_filled adj struct_img seed) v) = true ↔ _
    unfold dilation
    cases hf : lamin_filled adj struct_img seed v with
    | false => simp [hf]
    | true => simp [hf]

/-- Counterexample for C10: on the 8-voxel instance `adjCE`/`imgCE`/`bwCE`
with `minArea = 2`, removing the small component (voxel 7) before the
watershed changes the final mask.  Without the removal, the seeds dilated
from the small component's local maximum bridge — through the background
voxels 5 and 6 — the two seed groups of the large component into a single
label, so no watershed line is drawn at voxel 2; with the removal the two
seed groups carry distinct labels and voxel 2 becomes a line voxel.  The
two pipelines therefore disagree at voxel 2 of the final mask. -/
theorem dots_prefilter_counterexample :
    dots_pipeline_unoptimized adjCE imgCE bwCE 2 ≠ dots_pipeline adjCE imgCE bwCE 2 := by
  have hMask : remove_small_objects adjCE bwCE 2 = maskAL := by decide
  have hlabM : label adjCE maskAL = labAL := by decide
  have hpk : peak_local_max_wrapper adjCE imgCE labAL = pkAL := by decide
  have hSeed : dilation adjCE pkAL = seedAL := by decide
  have hmk : label adjCE seedAL = mkAL := by decide
  have hwmap : (fun v => -1 * (distance_transform_edt adjCE bwCE v : ℤ)) = wmapL := by decide
  have hws : watershed adjCE wmapL mkAL maskAL true = outAL := by decide
  have hA : dots_watershed adjCE imgCE bwCE 2 = outAL := by
    simp only [dots_watershed]
    rw [hMask, hlabM, hpk, hSeed, hmk, hwmap, hws]
  have hbinA : (fun v => decide (0 < dots_watershed adjCE imgCE bwCE 2 v)) = binAL := by
    rw [hA]; decide
  have hfinA : dots_pipeline adjCE imgCE bwCE 2 = finalAL := by
    show remove_small_objects adjCE
      (fun v => decide (0 < dots_watershed adjCE imgCE bwCE 2 v)) 2 = finalAL
    rw [hbinA]; decide
  have hlabB : label adjCE bwCE = labBL := by decide
  have hpkB : peak_local_max_wrapper adjCE imgCE labBL = pkBL := by decide
  have hSeedB : dilation adjCE pkBL = seedBL := by decide
  have hmkB : label adjCE seedBL = mkBL := by decide
  have hwsB : watershed adjCE wmapL mkBL bwCE true = outBL := by decide
  have hfinB : dots_pipeline_unoptimized adjCE imgCE bwCE 2 = finalBL := by
    simp only [dots_pipeline_unoptimized]
    rw [hlabB, hpkB, hSeedB, hmkB, hwmap, hwsB]
    have hbinB : (fun v => decide (0 < outBL v)) = binBL := by decide
    rw [hbinB]; decide
  rw [hfinA, hfinB]
  decide

/-! ## Watershed localization

Flooding a mask `m2` made of whole components of a larger mask `m1` (so
that no dropped voxel is adjacent to a kept voxel), with seeds that agree on
the kept voxels, produces the same labels on the kept voxels as flooding
`m1`: the extra flooding steps happen entirely inside the dropped
components and never interact with the kept ones. -/

section Localization

variable {n : ℕ} {α : Type} [LinearOrder α]
variable (adj : Fin n → Fin n → Bool) (elev : Fin n → α) (line : Bool)
variable {m1 m2 : Fin n → Bool}

theorem wloc_posLabels
    (hdrop : ∀ x y, m1 x = true → m2 x = false → m2 y = true → adj y x = false)
    {a b : Fin n → Option ℕ}
    (hE : ∀ u, m2 u = true → a u = b u)
    (ha : ∀ u, m2 u = false → a u = none)
    (hb : ∀ u, m1 u = false → b u = none)
    {v : Fin n} (hv : m2 v = true) : posLabels adj a v = posLabels adj b v := by
  have hnbr : ∀ w, adj v w = true → a w = b w := by
    intro w hw
    cases h2 : m2 w with
    | true => exact hE w h2
    | false =>
        cases h1 : m1 w with
        | true =>
            have : adj v w = false := hdrop w v h1 h2 hv
            rw [this] at hw
            exact absurd hw (by simp)
        | false => rw [ha w h2, hb w h1]
  unfold posLabels
  have hfilter : (Finset.univ.filter (fun w => adj v w = true ∧ 0 < (a w).getD 0))
      = Finset.univ.filter (fun w => adj v w = true ∧ 0 < (b w).getD 0) := by
    apply Finset.filter_congr
    intro w _
    by_cases hw : adj v w = true
    · rw [hnbr w hw]
    · simp [hw]
  rw [hfilter]
  apply Finset.image_congr
  intro w hw
  have hw' : adj v w = true := by
    have := Finset.mem_coe.mp hw
    rw [Finset.mem_filter] at this
    exact this.2.1
  show (a w).getD 0 = (b w).getD 0
  rw [hnbr w hw']

theorem wloc_cand
    (hsub : ∀ u, m2 u = true → m1 u = true)
    (hdrop : ∀ x y, m1 x = true → m2 x = false → m2 y = true → adj y x = false)
    {a b : Fin n → Option ℕ}
    (hE : ∀ u, m2 u = true → a u = b u)
    (ha : ∀ u, m2 u = false → a u = none)
    (hb : ∀ u, m1 u = false → b u = none)
    {u : Fin n} (hu : m2 u = true) :
    isCandidate adj m2 a u = isCandidate adj m1 b u := by
  unfold isCandidate
  rw [hu, hsub u hu, hE u hu, wloc_posLabels adj hdrop hE ha hb hu]

theorem wloc_step
    (hsub : ∀ u, m2 u = true → m1 u = true)
    (hdrop : ∀ x y, m1 x = true → m2 x = false → m2 y = true → adj y x = false)
    {a b : Fin n → Option ℕ}
    (hE : ∀ u, m2 u = true → a u = b u)
    (ha : ∀ u, m2 u = false → a u = none)
    (hb : ∀ u, m1 u = false → b u = none) :
    ∃ e ≤ 1, ∀ u, m2 u = true →
      ((wstep adj m2 elev line)^[e] a) u = wstep adj m1 elev line b u := by
  cases hp : pickNext adj m1 elev b with
  | none =>
      refine ⟨0, by omega, ?_⟩
      intro u hu
      rw [wstep_eq_of_none adj m1 elev hp]
      exact hE u hu
  | some v =>
      by_cases hv2 : m2 v = true
      · have hcandb : isCandidate adj m1 b v = true := pickNext_isCandidate adj m1 elev hp
        have hpos : posLabels adj a v = posLabels adj b v :=
          wloc_posLabels adj hdrop hE ha hb hv2
        have hcanda : isCandidate adj m2 a v = true := by
          rw [wloc_cand adj hsub hdrop hE ha hb hv2]
          exact hcandb
        have hpa : pickNext adj m2 elev a = some v := by
          obtain ⟨r, hr⟩ := pickNext_some_of_candidate adj m2 elev hcanda
          have hrc : isCandidate adj m2 a r = true := pickNext_isCandidate adj m2 elev hr
          have hr2 : m2 r = true := ((isCandidate_iff adj m2).mp hrc).1
          have hrb : isCandidate adj m1 b r = true := by
            rw [← wloc_cand adj hsub hdrop hE ha hb hr2]
            exact hrc
          have h1 : keyLt elev v r = false := pickNext_min adj m2 elev hr v hcanda
          have h2 : keyLt elev r v = false := pickNext_min adj m1 elev hp r hrb
          rw [keyLt_antisymm elev h2 h1] at hr
          exact hr
        refine ⟨1, le_refl 1, ?_⟩
        intro u hu
        rw [Function.iterate_one]
        rw [wstep_eq_of_some adj m2 elev hpa, wstep_eq_of_some adj m1 elev hp, hpos]
        by_cases hcard : (posLabels adj b v).card = 1 ∨ line = false
        · rw [if_pos hcard, if_pos hcard]
          by_cases huv : u = v
          · rw [huv, Function.update_same, Function.update_same]
          · rw [Function.update_noteq huv, Function.update_noteq huv]
            exact hE u hu
        · rw [if_neg hcard, if_neg hcard]
          by_cases huv : u = v
          · rw [huv, Function.update_same, Function.update_same]
          · rw [Function.update_noteq huv, Function.update_noteq huv]
            exact hE u hu
      · refine ⟨0, by omega, ?_⟩
        intro u hu
        have hvu : u ≠ v := by
          intro h
          rw [h] at hu
          exact hv2 hu
        obtain ⟨X, hX⟩ := wstep_update adj m1 elev hp
        rw [hX, Function.update_noteq hvu]
        exact hE u hu

theorem wloc_sim
    (hsub : ∀ u, m2 u = true → m1 u = true)
    (hdrop : ∀ x y, m1 x = true → m2 x = false → m2 y = true → adj y x = false)
    (a0 b0 : Fin n → Option ℕ)
    (hE0 : ∀ u, m2 u = true → a0 u = b0 u)
    (ha0 : ∀ u, m2 u = false → a0 u = none)
    (hb0 : ∀ u, m1 u = false → b0 u = none) :
    ∀ i, ∃ j ≤ i, ∀ u, m2 u = true →
      ((wstep adj m2 elev line)^[j] a0) u = ((wstep adj m1 elev line)^[i] b0) u := by
  intro i
  induction i with
  | zero => exact ⟨0, le_refl 0, hE0⟩
  | succ i ih =>
      obtain ⟨j, hj, hE⟩ := ih
      have haj : ∀ u, m2 u = false → ((wstep adj m2 elev line)^[j] a0) u = none :=
        fun u hu => iterate_none_outside adj m2 elev j a0 ha0 u hu
      have hbi : ∀ u, m1 u = false → ((wstep adj m1 elev line)^[i] b0) u = none :=
        fun u hu => iterate_none_outside adj m1 elev i b0 hb0 u hu
      obtain ⟨e, he, hstep⟩ := wloc_step adj elev line hsub hdrop hE haj hbi
      refine ⟨e + j, by omega, ?_⟩
      intro u hu
      rw [Function.iterate_add_apply, Function.iterate_succ_apply']
      exact hstep u hu

theorem watershed_localize
    (hsub : ∀ u, m2 u = true → m1 u = true)
    (hdrop : ∀ x y, m1 x = true → m2 x = false → m2 y = true → adj y x = false)
    {s1 s2 : Fin n → ℕ}
    (hseed : ∀ u, m2 u = true → s1 u = s2 u) :
    ∀ v, m2 v = true →
      watershed adj elev s2 m2 line v = watershed adj elev s1 m1 line v := by
  have hE0 : ∀ u, m2 u = true →
      (fun w => if m2 w = true ∧ 0 < s2 w then some (s2 w) else none) u
        = (fun w => if m1 w = true ∧ 0 < s1 w then some (s1 w) else none) u := by
    intro u hu
    show (if m2 u = true ∧ 0 < s2 u then some (s2 u) else none)
      = (if m1 u = true ∧ 0 < s1 u then some (s1 u) else none)
    simp [hu, hsub u hu, hseed u hu]
  have ha0 : ∀ u, m2 u = false →
      (fun w => if m2 w = true ∧ 0 < s2 w then some (s2 w) else none) u = none := by
    intro u hu
    show (if m2 u = true ∧ 0 < s2 u then some (s2 u) else none) = none
    rw [if_neg (fun hc => by rw [hu] at hc; exact absurd hc.1 (by simp))]
  have hb0 : ∀ u, m1 u = false →
      (fun w => if m1 w = true ∧ 0 < s1 w then some (s1 w) else none) u = none := by
    intro u hu
    show (if m1 u = true ∧ 0 < s1 u then some (s1 u) else none) = none
    rw [if_neg (fun hc => by rw [hu] at hc; exact absurd hc.1 (by simp))]
  obtain ⟨j, hj, hE⟩ := wloc_sim adj elev line hsub hdrop _ _ hE0 ha0 hb0 n
  have hbn : pickNext adj m1 elev ((wstep adj m1 elev line)^[n]
      (fun w => if m1 w = true ∧ 0 < s1 w then some (s1 w) else none)) = none :=
    pick_none_after adj m1 elev n _ (numNone_le _)
  have haj : ∀ u, m2 u = false → ((wstep adj m2 elev line)^[j]
      (fun w => if m2 w = true ∧ 0 < s2 w then some (s2 w) else none)) u = none :=
    fun u hu => iterate_none_outside adj m2 elev j _ ha0 u hu
  have hbninv : ∀ u, m1 u = false → ((wstep adj m1 elev line)^[n]
      (fun w => if m1 w = true ∧ 0 < s1 w then some (s1 w) else none)) u = none :=
    fun u hu => iterate_none_outside adj m1 elev n _ hb0 u hu
  have han : pickNext adj m2 elev ((wstep adj m2 elev line)^[j]
      (fun w => if m2 w = true ∧ 0 < s2 w then some (s2 w) else none)) = none := by
    cases hpa : pickNext adj m2 elev ((wstep adj m2 elev line)^[j]
        (fun w => if m2 w = true ∧ 0 < s2 w then some (s2 w) else none)) with
    | none => rfl
    | some v =>
        have hc := pickNext_isCandidate adj m2 elev hpa
        have hv2 : m2 v = true := ((isCandidate_iff adj m2).mp hc).1
        have hcb : isCandidate adj m1
            ((wstep adj m1 elev line)^[n]
              (fun w => if m1 w = true ∧ 0 < s1 w then some (s1 w) else none)) v = true := by
          rw [← wloc_cand adj hsub hdrop hE haj hbninv hv2]
          exact hc
        obtain ⟨r, hr⟩ := pickNext_some_of_candidate adj m1 elev hcb
        rw [hbn] at hr
        exact absurd hr (by simp)
  have hAfix : (wstep adj m2 elev line)^[n]
      (fun w => if m2 w = true ∧ 0 < s2 w then some (s2 w) else none)
      = (wstep adj m2 elev line)^[j]
      (fun w => if m2 w = true ∧ 0 < s2 w then some (s2 w) else none) := by
    have hsplit : (wstep adj m2 elev line)^[n]
        (fun w => if m2 w = true ∧ 0 < s2 w then some (s2 w) else none)
        = (wstep adj m2 elev line)^[(n - j) + j]
        (fun w => if m2 w = true ∧ 0 < s2 w then some (s2 w) else none) := by
      rw [Nat.sub_add_cancel hj]
    rw [hsplit, Function.iterate_add_apply]
    exact Function.iterate_fixed (wstep_eq_of_none adj m2 elev han) _
  intro v hv
  unfold watershed
  rw [hAfix, hE v hv]

end Localization

/-! ## The pre-watershed size filter of the dots recipe -/

section PrefilterEquiv

variable {n : ℕ} (adj : Fin n → Fin n → Bool)

theorem watershed_pos_mask {α : Type} [LinearOrder α] (elev : Fin n → α)
    (markers : Fin n → ℕ) (mask : Fin n → Bool) (line : Bool) {u : Fin n}
    (h : 0 < watershed adj elev markers mask line u) : mask u = true := by
  cases hm : mask u with
  | true => rfl
  | false =>
      rw [watershed_mask_zero adj elev markers mask line u hm] at h
      omega

theorem rso_eq_true_iff (bw : Fin n → Bool) (A : ℕ) (v : Fin n) :
    remove_small_objects adj bw A v = true ↔ bw v = true ∧ A ≤ (comp adj bw v).card := by
  unfold remove_small_objects
  simp [Bool.and_eq_true]

theorem rso_false_lt (bw : Fin n → Bool) (A : ℕ) {v : Fin n} (hbv : bw v = true)
    (h : remove_small_objects adj bw A v = false) : (comp adj bw v).card < A := by
  unfold remove_small_objects at h
  rw [hbv, Bool.true_and] at h
  have := of_decide_eq_false h
  omega

theorem rso_closed (hsymm : ∀ x y, adj x y = adj y x) (bw : Fin n → Bool) (A : ℕ)
    {v w : Fin n} (hv : remove_small_objects adj bw A v = true)
    (hw : w ∈ comp adj bw v) : remove_small_objects adj bw A w = true := by
  obtain ⟨hbv, hcard⟩ := (rso_eq_true_iff adj bw A v).mp hv
  have hbw : bw w = true := mem_comp_d adj hbv hw
  have hcw : comp adj bw w = comp adj bw v := comp_eq_of_mem adj hsymm hbv hw
  exact (rso_eq_true_iff adj bw A w).mpr ⟨hbw, by rw [hcw]; exact hcard⟩

theorem rso_not_adj (hsymm : ∀ x y, adj x y = adj y x) (bw : Fin n → Bool) (A : ℕ)
    {x y : Fin n} (hx1 : bw x = true) (hx2 : remove_small_objects adj bw A x = false)
    (hy : remove_small_objects adj bw A y = true) : adj y x = false := by
  cases hadj : adj y x with
  | false => rfl
  | true =>
      have hby : bw y = true := ((rso_eq_true_iff adj bw A y).mp hy).1
      have hxin : x ∈ comp adj bw y := comp_closed adj bw y (self_mem_comp adj) hadj hx1
      have := rso_closed adj hsymm bw A hy hxin
      rw [hx2] at this
      exact absurd this (by simp)

theorem comp_rso_eq (hsymm : ∀ x y, adj x y = adj y x) (bw : Fin n → Bool) (A : ℕ)
    {v : Fin n} (hv : remove_small_objects adj bw A v = true) :
    comp adj (remove_small_objects adj bw A) v = comp adj bw v := by
  refine comp_eq_of_sub adj ?_ hv ?_
  · intro w hw
    exact ((rso_eq_true_iff adj bw A w).mp hw).1
  · intro w hw
    exact rso_closed adj hsymm bw A hv hw

theorem rso_eq_of_component_agree (hsymm : ∀ x y, adj x y = adj y x)
    (bw : Fin n → Bool) (A : ℕ) {binA binB : Fin n → Bool}
    (hBsub : ∀ u, binB u = true → bw u = true)
    (hAsub : ∀ u, binA u = true → remove_small_objects adj bw A u = true)
    (hagree : ∀ u, remove_small_objects adj bw A u = true → binA u = binB u) :
    remove_small_objects adj binB A = remove_small_objects adj binA A := by
  funext v
  by_cases hMv : remove_small_objects adj bw A v = true
  · have hv := hagree v hMv
    cases hbv : binA v with
    | false =>
        have hbB : binB v = false := by rw [← hv]; exact hbv
        unfold remove_small_objects
        rw [hbv, hbB, Bool.false_and, Bool.false_and]
    | true =>
        have hbB : binB v = true := by rw [← hv]; exact hbv
        have hcomp : comp adj binA v = comp adj binB v := by
          refine comp_eq_of_sub adj ?_ hbv ?_
          · intro u hu
            have hMu : remove_small_objects adj bw A u = true := hAsub u hu
            rw [← hagree u hMu]
            exact hu
          · intro w hw
            have hbBw : binB w = true := mem_comp_d adj hbB hw
            have hwbw : w ∈ comp adj bw v :=
              comp_mono_d adj hBsub v hw
            have hMw : remove_small_objects adj bw A w = true :=
              rso_closed adj hsymm bw A hMv hwbw
            rw [hagree w hMw]
            exact hbBw
        unfold remove_small_objects
        rw [hbv, hbB, hcomp]
  · have hAv : binA v = false := by
      cases h : binA v with
      | false => rfl
      | true => exact absurd (hAsub v h) hMv
    unfold remove_small_objects
    rw [hAv, Bool.false_and]
    cases hBv : binB v with
    | false => rw [Bool.false_and]
    | true =>
        have hbv : bw v = true := hBsub v hBv
        have hMv' : remove_small_objects adj bw A v = false := by
          cases h : remove_small_objects adj bw A v with
          | false => rfl
          | true => exact absurd h hMv
        have hlt : (comp adj bw v).card < A := rso_false_lt adj bw A hbv hMv'
        have hle : (comp adj binB v).card ≤ (comp adj bw v).card :=
          Finset.card_le_card (comp_mono_d adj hBsub v)
        rw [Bool.true_and]
        exact decide_eq_false (by omega)

theorem rso_watershed_congr (hsymm : ∀ x y, adj x y = adj y x) (bw : Fin n → Bool)
    (A : ℕ) (wmap : Fin n → ℤ) (sA sB : Fin n → ℕ)
    (hagree : ∀ u, remove_small_objects adj bw A u = true → sB u = sA u) :
    remove_small_objects adj (fun u => decide (0 < watershed adj wmap sB bw true u)) A
      = remove_small_objects adj
          (fun u => decide (0 < watershed adj wmap sA (remove_small_objects adj bw A) true u)) A := by
  have hsub : ∀ u, remove_small_objects adj bw A u = true → bw u = true := fun u hu =>
    ((rso_eq_true_iff adj bw A u).mp hu).1
  have hdrop : ∀ x y, bw x = true → remove_small_objects adj bw A x = false →
      remove_small_objects adj bw A y = true → adj y x = false := fun x y h1 h2 h3 =>
    rso_not_adj adj hsymm bw A h1 h2 h3
  have hloc : ∀ u, remove_small_objects adj bw A u = true →
      watershed adj wmap sA (remove_small_objects adj bw A) true u
        = watershed adj wmap sB bw true u :=
    watershed_localize adj wmap true hsub hdrop hagree
  refine rso_eq_of_component_agree adj hsymm bw A ?_ ?_ ?_
  · intro u hu
    exact watershed_pos_mask adj wmap sB bw true (of_decide_eq_true hu)
  · intro u hu
    exact watershed_pos_mask adj wmap sA (remove_small_objects adj bw A) true
      (of_decide_eq_true hu)
  · intro u hu
    show decide (0 < watershed adj wmap sA (remove_small_objects adj bw A) true u)
      = decide (0 < watershed adj wmap sB bw true u)
    rw [hloc u hu]

theorem label_rso_eq_iff (hsymm : ∀ x y, adj x y = adj y x) (bw : Fin n → Bool) (A : ℕ)
    {v : Fin n} (hv : remove_small_objects adj bw A v = true) (w : Fin n) :
    (label adj (remove_small_objects adj bw A) w = label adj (remove_small_objects adj bw A) v)
      ↔ (label adj bw w = label adj bw v) := by
  have hbv : bw v = true := ((rso_eq_true_iff adj bw A v).mp hv).1
  constructor
  · intro h
    obtain ⟨hw, hc⟩ := (label_eq_label adj hsymm hv w).mp h
    refine (label_eq_label adj hsymm hbv w).mpr ⟨((rso_eq_true_iff adj bw A w).mp hw).1, ?_⟩
    rw [← comp_rso_eq adj hsymm bw A hw, hc, comp_rso_eq adj hsymm bw A hv]
  · intro h
    obtain ⟨hbw, hc⟩ := (label_eq_label adj hsymm hbv w).mp h
    have hwin : w ∈ comp adj bw v := by
      rw [← hc]
      exact self_mem_comp adj
    have hw : remove_small_objects adj bw A w = true := rso_closed adj hsymm bw A hv hwin
    refine (label_eq_label adj hsymm hv w).mpr ⟨hw, ?_⟩
    rw [comp_rso_eq adj hsymm bw A hw, hc, ← comp_rso_eq adj hsymm bw A hv]

theorem peaks_rso_eq (hsymm : ∀ x y, adj x y = adj y x) (struct_img : Fin n → ℚ)
    (bw : Fin n → Bool) (A : ℕ) {v : Fin n}
    (hv : remove_small_objects adj bw A v = true) :
    peak_local_max_wrapper adj struct_img (label adj (remove_small_objects adj bw A)) v
      = peak_local_max_wrapper adj struct_img (label adj bw) v := by
  have hbv : bw v = true := ((rso_eq_true_iff adj bw A v).mp hv).1
  unfold peak_local_max_wrapper
  have h1 : decide (0 < label adj (remove_small_objects adj bw A) v)
      = decide (0 < label adj bw v) := by
    rw [decide_eq_decide, label_pos_iff, label_pos_iff]
    exact ⟨fun _ => hbv, fun _ => hv⟩
  have h2 : decide (∀ w, adj v w = true →
        label adj (remove_small_objects adj bw A) w
          = label adj (remove_small_objects adj bw A) v →
        struct_img w ≤ struct_img v)
      = decide (∀ w, adj v w = true → label adj bw w = label adj bw v →
        struct_img w ≤ struct_img v) := by
    rw [decide_eq_decide]
    constructor
    · intro h w hadj hlab
      exact h w hadj ((label_rso_eq_iff adj hsymm bw A hv w).mpr hlab)
    · intro h w hadj hlab
      exact h w hadj ((label_rso_eq_iff adj hsymm bw A hv w).mp hlab)
  rw [h1, h2]

theorem peaks_rso_mono (hsymm : ∀ x y, adj x y = adj y x) (struct_img : Fin n → ℚ)
    (bw : Fin n → Bool) (A : ℕ) {w : Fin n}
    (hw : peak_local_max_wrapper adj struct_img (label adj (remove_small_objects adj bw A)) w
      = true) :
    peak_local_max_wrapper adj struct_img (label adj bw) w = true := by
  have hMw : remove_small_objects adj bw A w = true := by
    unfold peak_local_max_wrapper at hw
    simp only [Bool.and_eq_true] at hw
    exact (label_pos_iff adj).mp (of_decide_eq_true hw.1)
  rw [← peaks_rso_eq adj hsymm struct_img bw A hMw]
  exact hw

theorem seedmask_rso_eq (hsymm : ∀ x y, adj x y = adj y x) (struct_img : Fin n → ℚ)
    (bw : Fin n → Bool) (A : ℕ) {v : Fin n}
    (hv : remove_small_objects adj bw A v = true) :
    dilation adj (peak_local_max_wrapper adj struct_img
        (label adj (remove_small_objects adj bw A))) v
      = dilation adj (peak_local_max_wrapper adj struct_img (label adj bw)) v := by
  unfold dilation
  rw [peaks_rso_eq adj hsymm struct_img bw A hv]
  have hex : decide (∃ w, adj v w = true ∧
        peak_local_max_wrapper adj struct_img
          (label adj (remove_small_objects adj bw A)) w = true)
      = decide (∃ w, adj v w = true ∧
        peak_local_max_wrapper adj struct_img (label adj bw) w = true) := by
    rw [decide_eq_decide]
    constructor
    · rintro ⟨w, hadj, hpw⟩
      exact ⟨w, hadj, peaks_rso_mono adj hsymm struct_img bw A hpw⟩
    · rintro ⟨w, hadj, hpw⟩
      have hbw : bw w = true := by
        unfold peak_local_max_wrapper at hpw
        simp only [Bool.and_eq_true] at hpw
        exact (label_pos_iff adj).mp (of_decide_eq_true hpw.1)
      cases hMw : remove_small_objects adj bw A w with
      | true =>
          refine ⟨w, hadj, ?_⟩
          rw [peaks_rso_eq adj hsymm struct_img bw A hMw]
          exact hpw
      | false =>
          have := rso_not_adj adj hsymm bw A hbw hMw hv
          rw [this] at hadj
          exact absurd hadj (by simp)
  rw [hex]

theorem seedmask_rso_mono (hsymm : ∀ x y, adj x y = adj y x) (struct_img : Fin n → ℚ)
    (bw : Fin n → Bool) (A : ℕ) {w : Fin n}
    (hw : dilation adj (peak_local_max_wrapper adj struct_img
        (label adj (remove_small_objects adj bw A))) w = true) :
    dilation adj (peak_local_max_wrapper adj struct_img (label adj bw)) w = true := by
  unfold dilation at hw ⊢
  simp only [Bool.or_eq_true] at hw
  rcases hw with h | h
  · rw [peaks_rso_mono adj hsymm struct_img bw A h, Bool.true_or]
  · obtain ⟨u, hadj, hpu⟩ := of_decide_eq_true h
    have hdec : decide (∃ u, adj w u = true ∧
        peak_local_max_wrapper adj struct_img (label adj bw) u = true) = true :=
      decide_eq_true ⟨u, hadj, peaks_rso_mono adj hsymm struct_img bw A hpu⟩
    rw [hdec, Bool.or_true]

theorem seed_label_agree (hsymm : ∀ x y, adj x y = adj y x) (struct_img : Fin n → ℚ)
    (bw : Fin n → Bool) (A : ℕ)
    (Hsep : ∀ x w, adj x w = true →
      dilation adj (peak_local_max_wrapper adj struct_img
        (label adj (remove_small_objects adj bw A))) x = true →
      dilation adj (peak_local_max_wrapper adj struct_img (label adj bw)) w = true →
      dilation adj (peak_local_max_wrapper adj struct_img
        (label adj (remove_small_objects adj bw A))) w = true)
    {v : Fin n} (hv : remove_small_objects adj bw A v = true) :
    label adj (dilation adj (peak_local_max_wrapper adj struct_img (label adj bw))) v
      = label adj (dilation adj (peak_local_max_wrapper adj struct_img
          (label adj (remove_small_objects adj bw A)))) v := by
  cases hσ : dilation adj (peak_local_max_wrapper adj struct_img
      (label adj (remove_small_objects adj bw A))) v with
  | false =>
      have hσB : dilation adj (peak_local_max_wrapper adj struct_img (label adj bw)) v
          = false := by
        rw [← seedmask_rso_eq adj hsymm struct_img bw A hv]
        exact hσ
      rw [label_of_neg adj hσB, label_of_neg adj hσ]
  | true =>
      have hσB : dilation adj (peak_local_max_wrapper adj struct_img (label adj bw)) v
          = true := by
        rw [← seedmask_rso_eq adj hsymm struct_img bw A hv]
        exact hσ
      have hcomp : comp adj (dilation adj (peak_local_max_wrapper adj struct_img
            (label adj (remove_small_objects adj bw A)))) v
          = comp adj (dilation adj (peak_local_max_wrapper adj struct_img (label adj bw))) v := by
        refine comp_eq_of_sub adj ?_ hσ ?_
        · intro u hu
          exact seedmask_rso_mono adj hsymm struct_img bw A hu
        · intro w hw
          exact comp_induction adj
            (dilation adj (peak_local_max_wrapper adj struct_img (label adj bw))) v
            (fun u => dilation adj (peak_local_max_wrapper adj struct_img
              (label adj (remove_small_objects adj bw A))) u = true)
            hσ (fun x u hx hadj hdu => Hsep x u hadj hx hdu) w hw
      rw [label_of_pos adj hσB, label_of_pos adj hσ, hcomp]

/-- C10 (amended): removing the sub-`minArea` components before the
watershed step yields the same final mask as running the watershed on the
unfiltered detector mask followed by the same final size filter, provided
the dilated seed mask of the filtered recipe is adjacency-closed within the
dilated seed mask of the unfiltered recipe (no seed voxel stemming from a
removed component is adjacent to a seed voxel of a retained component).
Without this proviso the removal is not a pure optimization — see the
counterexample. -/
theorem dots_prefilter_equiv_of_separated {n : ℕ} (adj : Fin n → Fin n → Bool)
    (hsymm : ∀ x y, adj x y = adj y x) (struct_img : Fin n → ℚ) (bw : Fin n → Bool)
    (minArea : ℕ)
    (Hsep : ∀ x w, adj x w = true →
      dilation adj (peak_local_max_wrapper adj struct_img
        (label adj (remove_small_objects adj bw minArea))) x = true →
      dilation adj (peak_local_max_wrapper adj struct_img (label adj bw)) w = true →
      dilation adj (peak_local_max_wrapper adj struct_img
        (label adj (remove_small_objects adj bw minArea))) w = true) :
    dots_pipeline_unoptimized adj struct_img bw minArea
      = dots_pipeline adj struct_img bw minArea := by
  have hagree : ∀ u, remove_small_objects adj bw minArea u = true →
      label adj (dilation adj (peak_local_max_wrapper adj struct_img (label adj bw))) u
        = label adj (dilation adj (peak_local_max_wrapper adj struct_img
            (label adj (remove_small_objects adj bw minArea)))) u :=
    fun u hu => seed_label_agree adj hsymm struct_img bw minArea Hsep hu
  show remove_small_objects adj (fun u => decide (0 < watershed adj
      (fun v => -1 * (distance_transform_edt adj bw v : ℤ))
      (label adj (dilation adj (peak_local_max_wrapper adj struct_img (label adj bw))))
      bw true u)) minArea
    = remove_small_objects adj (fun u => decide (0 < watershed adj
      (fun v => -1 * (distance_transform_edt adj bw v : ℤ))
      (label adj (dilation adj (peak_local_max_wrapper adj struct_img
        (label adj (remove_small_objects adj bw minArea)))))
      (remove_small_objects adj bw minArea) true u)) minArea
  exact rso_watershed_congr adj hsymm bw minArea
    (fun v => -1 * (distance_transform_edt adj bw v : ℤ))
    (label adj (dilation adj (peak_local_max_wrapper adj struct_img
      (label adj (remove_small_objects adj bw minArea)))))
    (label adj (dilation adj (peak_local_max_wrapper adj struct_img (label adj bw))))
    hagree

end PrefilterEquiv

/-- Witness for the amended C10 on a two-voxel all-foreground instance with
`minArea = 1`, where the filter removes nothing and the separation proviso
holds trivially. -/
theorem dots_prefilter_equiv_witness :
    (∀ x y, adjPath2 x y = adjPath2 y x)
    ∧ (∀ x w, adjPath2 x w = true →
        dilation adjPath2 (peak_local_max_wrapper adjPath2 img2
          (label adjPath2 (remove_small_objects adjPath2 maskAll2 1))) x = true →
        dilation adjPath2 (peak_local_max_wrapper adjPath2 img2 (label adjPath2 maskAll2)) w
          = true →
        dilation adjPath2 (peak_local_max_wrapper adjPath2 img2
          (label adjPath2 (remove_small_objects adjPath2 maskAll2 1))) w = true)
    ∧ dots_pipeline_unoptimized adjPath2 img2 maskAll2 1
        = dots_pipeline adjPath2 img2 maskAll2 1 :=
  ⟨by decide, by decide,
    dots_prefilter_equiv_of_separated adjPath2 (by decide) img2 maskAll2 1 (by decide)⟩

end AicsSeg
